import Mathlib

/-!
Verification of the podcast downloader scripts (`podkaszt_hu.py`,
`soundcloud.py`) against their specification.

Python strings are embedded as lists of Unicode scalar values
(`List Char`); byte strings as `List Nat`; machine integers as `Nat`
(all the arithmetic in these scripts is on non-negative quantities, and
the `max(1, a - b)` idioms coincide with truncated `Nat` subtraction).
Filesystem and network effects are passed in explicitly as state and
oracle parameters.
-/

abbrev Str := List Char

def toL (s : String) : Str := s.toList

/-- UTF-8 byte size of one Unicode scalar value, as Python's codecs
compute it for `str.encode("utf-8")` (1 to 4 bytes by code point range). -/
def usize (c : Char) : Nat :=
  if c.toNat < 0x80 then 1
  else if c.toNat < 0x800 then 2
  else if c.toNat < 0x10000 then 3
  else 4

/-- UTF-8 byte length of a string: `len(s.encode("utf-8"))`. -/
def utf8Len : Str → Nat
  | [] => 0
  | c :: cs => usize c + utf8Len cs

/-- UTF-8 byte encoding of one scalar value. -/
def utf8Bytes (c : Char) : List Nat :=
  let n := c.toNat
  if n < 0x80 then [n]
  else if n < 0x800 then [0xC0 + n / 0x40, 0x80 + n % 0x40]
  else if n < 0x10000 then [0xE0 + n / 0x1000, 0x80 + n / 0x40 % 0x40, 0x80 + n % 0x40]
  else [0xF0 + n / 0x40000, 0x80 + n / 0x1000 % 0x40, 0x80 + n / 0x40 % 0x40, 0x80 + n % 0x40]

/-- UTF-8 byte encoding of a string: `s.encode("utf-8")`. -/
def encodeUtf8 : Str → List Nat
  | [] => []
  | c :: cs => utf8Bytes c ++ encodeUtf8 cs

/-- The longest prefix of `s` whose UTF-8 encoding fits in `maxB` bytes.
This is what `b[:maxB].decode("utf-8", errors="ignore")` computes when `b`
is the valid UTF-8 encoding of `s`: the byte slice keeps exactly the
characters that lie fully inside the cut, and the `ignore` handler drops
the bytes of the one trailing partially-cut character. -/
def takeUtf8 (maxB : Nat) : Str → Str
  | [] => []
  | c :: cs => if usize c ≤ maxB then c :: takeUtf8 (maxB - usize c) cs else []

/-- Python `s.lstrip` restricted to a character predicate. -/
def pyLstripP (p : Char → Bool) (s : Str) : Str := s.dropWhile p

/-- Python `s.rstrip` restricted to a character predicate. -/
def pyRstripP (p : Char → Bool) (s : Str) : Str := (s.reverse.dropWhile p).reverse

/-- Python `s.strip` restricted to a character predicate. -/
def pyStripP (p : Char → Bool) (s : Str) : Str := pyRstripP p (pyLstripP p s)

/-- Python's Unicode whitespace predicate (`str.isspace`, also the class
matched by `\s` in a unicode regex): the White_Space code points. -/
def isPySpace (c : Char) : Bool :=
  let n := c.toNat
  decide ((0x09 ≤ n ∧ n ≤ 0x0D) ∨ (0x1C ≤ n ∧ n ≤ 0x1F) ∨ n = 0x20 ∨ n = 0x85 ∨
    n = 0xA0 ∨ n = 0x1680 ∨ (0x2000 ≤ n ∧ n ≤ 0x200A) ∨ n = 0x2028 ∨
    n = 0x2029 ∨ n = 0x202F ∨ n = 0x205F ∨ n = 0x3000)

/-- Worker for `collapseWS`; the flag records whether the previous input
character was whitespace (i.e. we are inside a run already replaced). -/
def collapseWSGo : Str → Bool → Str
  | [], _ => []
  | c :: cs, prevWs =>
    if isPySpace c then
      if prevWs then collapseWSGo cs true else ' ' :: collapseWSGo cs true
    else c :: collapseWSGo cs false

/-- `re.sub(r"\s+", " ", s)`: each maximal whitespace run becomes one space. -/
def collapseWS (s : Str) : Str := collapseWSGo s false

/-- The character class of slugify's replacement regex:
control characters and the characters illegal in filenames. -/
def isIllegalFsChar (c : Char) : Bool :=
  c == '<' || c == '>' || c == ':' || c == '"' || c == '/' || c == '\\' ||
  c == '|' || c == '?' || c == '*' || decide (c.toNat ≤ 0x1F)

/-- The strip class `" ._"` used in slugify. -/
def isStripDotUnderscore (c : Char) : Bool := c == ' ' || c == '.' || c == '_'

/-- The sanitize pipeline of `slugify` before the final fallback:
strip whitespace, collapse whitespace runs, replace illegal characters
with underscores, strip `" ._"`, and cap the length at `maxLen`
code points (rstripping `" ._"` again after the cut). -/
def slugifyCore (maxLen : Nat) (name : Str) : Str :=
  let s1 := pyStripP isPySpace name
  let s2 := collapseWS s1
  let s3 := s2.map (fun c => if isIllegalFsChar c then '_' else c)
  let s4 := pyStripP isStripDotUnderscore s3
  if maxLen < s4.length then pyRstripP isStripDotUnderscore (s4.take maxLen) else s4

/-- `slugify(name, max_len)` from `podkaszt_hu.py`. -/
def slugify (maxLen : Nat) (name : Str) : Str :=
  let s := slugifyCore maxLen name
  if s = [] then toL "untitled" else s

/-- The rstrip class `" ._-"` used at truncation cut points. -/
def isTrimPunct (c : Char) : Bool := c == ' ' || c == '.' || c == '_' || c == '-'

/-- `trim_utf8_to_bytes(text, max_bytes, suffix)`: trim so the UTF-8 byte
length is at most `max_bytes`; when trimming happens append `suffix`
(counted inside the budget).  Byte-level slicing plus decoding with
`errors="ignore"` is `takeUtf8` (see its doc comment).  Python's
`max_bytes <= 0` guard is the `maxBytes = 0` case here. -/
def trim_utf8_to_bytes (text : Str) (maxBytes : Nat) (suffix : Str) : Str :=
  if maxBytes = 0 then []
  else if utf8Len text ≤ maxBytes then text
  else if maxBytes ≤ utf8Len suffix then takeUtf8 maxBytes suffix
  else pyRstripP isTrimPunct (takeUtf8 (maxBytes - utf8Len suffix) text) ++ suffix

def AUDIO_EXTS : List Str :=
  [toL ".mp3", toL ".m4a", toL ".aac", toL ".ogg", toL ".opus", toL ".wav"]

def TMP_SUFFIX : Str := toL ".part"

/-- ASCII lowercasing of one character.  `str.lower` in the scripts is only
ever applied where it must land in the ASCII extension/scheme alphabets, on
which Python's full Unicode lowercasing agrees with the ASCII one. -/
def lowerChar (c : Char) : Char :=
  if 65 ≤ c.toNat ∧ c.toNat ≤ 90 then Char.ofNat (c.toNat + 32) else c

def pyLower (s : Str) : Str := s.map lowerChar

/-- The extension normalization at the top of `build_safe_filename`:
lowercase, then fall back to ".mp3" unless the result is a known audio
extension. -/
def normExtBuild (ext : Str) : Str :=
  let e := pyLower ext
  if e ∈ AUDIO_EXTS then e else toL ".mp3"

/-- `str(out_dir / filename)` for a `pathlib` directory whose string form is
`d` (so `d` is already in normalized form: no trailing separator except for
the root).  POSIX separator. -/
def pathJoin (d f : Str) : Str :=
  if d = toL "/" then d ++ f
  else if d = toL "." then f
  else d ++ toL "/" ++ f

/-- The stem f-string of `build_safe_filename`:
`f"{producer_s} - {title_s} - {date} [{key10}]"`. -/
def buildStem (producer title date episode_key : Str) : Str :=
  slugify 4000 producer ++ toL " - " ++ slugify 8000 title ++ toL " - " ++
    date ++ toL " [" ++ episode_key.take 10 ++ toL "]"

/-- `build_safe_filename` from `podkaszt_hu.py`.  `name_max` and `path_max`
are the values `get_name_max` / `get_path_max` obtain from the OS for
`out_dir` (typically, and as fallback, 255 and 4096 on Linux). -/
def build_safe_filename (name_max path_max : Nat)
    (out_dir producer title date episode_key ext0 : Str) : Str :=
  let ext := normExtBuild ext0
  let stem := buildStem producer title date episode_key
  let tail_bytes := utf8Len (ext ++ TMP_SUFFIX)
  let max_stem_bytes := max 1 (name_max - tail_bytes)
  let safe_stem := trim_utf8_to_bytes stem max_stem_bytes (toL "___")
  let filename := safe_stem ++ ext
  if path_max < utf8Len (pathJoin out_dir filename) ∨
      path_max < utf8Len (pathJoin out_dir (filename ++ TMP_SUFFIX)) then
    let pfx_bytes := utf8Len (out_dir ++ toL "/")
    let max_filename_bytes := max 1 (path_max - pfx_bytes)
    let max_stem_bytes2 := max 1 (max_filename_bytes - tail_bytes)
    trim_utf8_to_bytes stem max_stem_bytes2 (toL "___") ++ ext
  else filename

/-- The final path component, the region `os.path.splitext` looks at. -/
def lastSlashSeg (p : Str) : Str := (p.reverse.takeWhile (fun c => c != '/')).reverse

/-- `os.path.splitext`: split off the extension at the last dot of the last
path component, unless every character before that dot in the component is
itself a dot (leading-dot names have no extension). -/
def pySplitext (p : Str) : Str × Str :=
  let base := lastSlashSeg p
  let after := (base.reverse.takeWhile (fun c => c != '.')).reverse
  if ('.' : Char) ∈ base ∧
      (base.take (base.length - after.length - 1)).any (fun c => c != '.') then
    (p.take (p.length - after.length - 1), '.' :: after)
  else (p, [])

/-- `base_stem.endswith("___")`. -/
def endsWithMarker (s : Str) : Bool := decide (List.take 3 s.reverse = toL "___")

/-- The extension defaulting in `halve_filename_fallback`: empty extensions
become ".mp3"; extensions whose lowercase form is not a known audio
extension become ".mp3"; otherwise the extension keeps its original case. -/
def halveExt (filename : Str) : Str :=
  let e := (pySplitext filename).2
  if e = [] then toL ".mp3"
  else if pyLower e ∈ AUDIO_EXTS then e else toL ".mp3"

/-- The de-marked stem in `halve_filename_fallback`: drop a trailing "___"
marker (so markers do not pile up) and rstrip `" ._-"`. -/
def halveBaseStem (filename : Str) : Str :=
  let stem := (pySplitext filename).1
  if endsWithMarker stem then pyRstripP isTrimPunct (stem.take (stem.length - 3)) else stem

/-- `halve_filename_fallback` from `podkaszt_hu.py`. -/
def halve_filename_fallback (name_max path_max : Nat) (out_dir filename : Str) : Str :=
  let ext := halveExt filename
  let base_stem := halveBaseStem filename
  let half_bytes := max 1 (utf8Len base_stem / 2)
  let tail_bytes := utf8Len (ext ++ TMP_SUFFIX)
  let max_stem_bytes := max 1 (name_max - tail_bytes)
  let target_bytes := min half_bytes max_stem_bytes
  let safe_stem := trim_utf8_to_bytes base_stem target_bytes (toL "___")
  let new_filename := safe_stem ++ ext
  if path_max < utf8Len (pathJoin out_dir new_filename) ∨
      path_max < utf8Len (pathJoin out_dir (new_filename ++ TMP_SUFFIX)) then
    let pfx_bytes := utf8Len (out_dir ++ toL "/")
    let max_filename_bytes := max 1 (path_max - pfx_bytes)
    let max_stem_bytes2 := max 1 (max_filename_bytes - tail_bytes)
    let target_bytes2 := min target_bytes max_stem_bytes2
    trim_utf8_to_bytes base_stem target_bytes2 (toL "___") ++ ext
  else new_filename

example : slugify 4000 (toL "  a   b  ") = toL "a b" := by decide
example : slugify 4000 (toL " ._ ") = toL "untitled" := by decide
example : slugify 4000 (toL "a<b>c") = toL "a_b_c" := by decide
example : trim_utf8_to_bytes (toL "abcdef") 5 (toL "___") = toL "ab___" := by decide
example : trim_utf8_to_bytes (toL "abcdef") 2 (toL "___") = toL "__" := by decide
example : trim_utf8_to_bytes (toL "abc") 5 (toL "___") = toL "abc" := by decide
example : pySplitext (toL "a.mp3") = (toL "a", toL ".mp3") := by decide
example : pySplitext (toL ".bashrc") = (toL ".bashrc", []) := by decide
example : pySplitext (toL "..a.b") = (toL "..a", toL ".b") := by decide
example : pySplitext (toL "x.y/z") = (toL "x.y/z", []) := by decide
example : halve_filename_fallback 255 4096 (toL "podcasts") (toL "abcdefgh.mp3") =
    toL "a___.mp3" := by decide
example : halve_filename_fallback 255 4096 (toL "podcasts") (toL "a.mp3") =
    toL "a.mp3" := by decide
example : build_safe_filename 255 4096 (toL "podcasts") (toL "Prod") (toL "Title")
    (toL "2024-01-02") (toL "0123456789abcdef") (toL ".MP3") =
    toL "Prod - Title - 2024-01-02 [0123456789].mp3" := by decide

/-! ### SHA-1 (`hashlib.sha1`)
The standard library hash used for episode keys, implemented from
FIPS 180-1: 512-bit chunks, 80-round compression on 32-bit words,
modelled as `Nat` reduced mod `2^32`. -/

def w32 : Nat := 4294967296

/-- Rotate a 32-bit word left by `n` bits. -/
def rotl32 (n x : Nat) : Nat := ((x <<< n) ||| (x >>> (32 - n))) % w32

/-- Big-endian 32-bit words from a byte list (length a multiple of 4). -/
def bytesToWords : List Nat → List Nat
  | b0 :: b1 :: b2 :: b3 :: rest =>
    (b0 * 0x1000000 + b1 * 0x10000 + b2 * 0x100 + b3) :: bytesToWords rest
  | _ => []

/-- Big-endian 8-byte encoding of the 64-bit message bit length. -/
def lenBytes64 (n : Nat) : List Nat :=
  [n / 0x100000000000000 % 256, n / 0x1000000000000 % 256, n / 0x10000000000 % 256,
   n / 0x100000000 % 256, n / 0x1000000 % 256, n / 0x10000 % 256, n / 0x100 % 256, n % 256]

/-- SHA-1 padding: a 0x80 byte, zeros to 56 mod 64, then the bit length. -/
def sha1Pad (msg : List Nat) : List Nat :=
  let padZeros := (64 + 55 - msg.length % 64) % 64
  msg ++ [0x80] ++ List.replicate padZeros 0 ++ lenBytes64 (msg.length * 8)

/-- Split a byte list into 64-byte chunks. -/
def toChunks64 (l : List Nat) : List (List Nat) :=
  if l = [] then []
  else l.take 64 :: toChunks64 (l.drop 64)
termination_by l.length
decreasing_by
  simp only [List.length_drop]
  rename_i h
  have : 0 < l.length := List.length_pos.mpr h
  omega

/-- Message schedule: extend the 16 chunk words to 80, keeping the already
produced words newest-first in `acc`, so `w[i-3]`, `w[i-8]`, `w[i-14]`,
`w[i-16]` are at positions 2, 7, 13, 15. -/
def sha1Schedule : Nat → List Nat → List Nat
  | 0, acc => acc.reverse
  | k + 1, acc =>
    let nw := rotl32 1 (Nat.xor (Nat.xor (acc.getD 2 0) (acc.getD 7 0))
        (Nat.xor (acc.getD 13 0) (acc.getD 15 0)))
    sha1Schedule k (nw :: acc)

/-- Round constants. -/
def sha1K (i : Nat) : Nat :=
  if i < 20 then 0x5A827999
  else if i < 40 then 0x6ED9EBA1
  else if i < 60 then 0x8F1BBCDC
  else 0xCA62C1D6

/-- Round functions (Ch, Parity, Maj, Parity). -/
def sha1F (i b c d : Nat) : Nat :=
  if i < 20 then Nat.lor (Nat.land b c) (Nat.land (Nat.xor b 0xFFFFFFFF) d)
  else if i < 40 then Nat.xor (Nat.xor b c) d
  else if i < 60 then Nat.lor (Nat.lor (Nat.land b c) (Nat.land b d)) (Nat.land c d)
  else Nat.xor (Nat.xor b c) d

abbrev Sha1State := Nat × Nat × Nat × Nat × Nat

/-- One compression round. -/
def sha1Round (st : Sha1State) (iw : Nat × Nat) : Sha1State :=
  match st, iw with
  | (a, b, c, d, e), (i, wi) =>
    ((rotl32 5 a + sha1F i b c d + e + sha1K i + wi) % w32, a, rotl32 30 b, c, d)

/-- Process one 64-byte chunk. -/
def sha1Chunk (h : Sha1State) (chunk : List Nat) : Sha1State :=
  let ws := sha1Schedule 64 (bytesToWords chunk).reverse
  match h with
  | (h0, h1, h2, h3, h4) =>
    match ((List.range 80).zip ws).foldl sha1Round (h0, h1, h2, h3, h4) with
    | (a, b, c, d, e) =>
      ((h0 + a) % w32, (h1 + b) % w32, (h2 + c) % w32, (h3 + d) % w32, (h4 + e) % w32)

/-- SHA-1 digest of a byte list, as the five 32-bit result words. -/
def sha1Digest (msg : List Nat) : Sha1State :=
  (toChunks64 (sha1Pad msg)).foldl sha1Chunk
    (0x67452301, 0xEFCDAB89, 0x98BADCFE, 0x10325476, 0xC3D2E1F0)

/-- Lowercase hex digit. -/
def hexDigit (n : Nat) : Char :=
  if n < 10 then Char.ofNat (48 + n) else Char.ofNat (87 + n)

/-- Fixed-width 8-hex-digit rendering of a 32-bit word. -/
def hexWord8 (x : Nat) : Str :=
  [hexDigit (x / 0x10000000 % 16), hexDigit (x / 0x1000000 % 16),
   hexDigit (x / 0x100000 % 16), hexDigit (x / 0x10000 % 16),
   hexDigit (x / 0x1000 % 16), hexDigit (x / 0x100 % 16),
   hexDigit (x / 0x10 % 16), hexDigit (x % 16)]

/-- `hashlib.sha1(bytes).hexdigest()`. -/
def sha1Hex (msg : List Nat) : Str :=
  match sha1Digest msg with
  | (h0, h1, h2, h3, h4) =>
    hexWord8 h0 ++ hexWord8 h1 ++ hexWord8 h2 ++ hexWord8 h3 ++ hexWord8 h4

/-- `sha1(s)` from `podkaszt_hu.py`: hex digest of the UTF-8 encoding. -/
def sha1 (s : Str) : Str := sha1Hex (encodeUtf8 s)

/-- The episode key computed at `podkaszt_hu.py` line 609:
`sha1(f"{title}|{producer}|{date}")`. -/
def episodeKeyOf (title producer date : Str) : Str :=
  sha1 (title ++ toL "|" ++ producer ++ toL "|" ++ date)

/-! ### `download_with_resume`
The filesystem is the pair of the temporary `.part` file and the
destination file; the network is an oracle mapping the (optional) Range
offset of the single request the function makes to the response. -/

/-- An HTTP response: status code, the chunk sequence `iter_content`
yields, and whether iteration runs to completion (a transport failure
mid-stream raises after the listed chunks were yielded and written). -/
structure HttpResponse where
  status : Nat
  chunks : List (List Nat)
  streamOk : Bool

/-- Contents of the two files `download_with_resume` touches
(`none` = the file does not exist). -/
structure Fs where
  tmp : Option (List Nat)
  dest : Option (List Nat)
deriving DecidableEq

/-- How the call ends: normal return (with the Python return value),
`raise_for_status` raising, or a streaming failure propagating. -/
inductive DlResult where
  | ok (ret : Option Nat)
  | httpError (status : Nat)
  | streamError
deriving DecidableEq

/-- Observable trace of one `download_with_resume` call: the Range offset
sent (if any), the file mode decision, the final filesystem state, and how
the call ended. -/
structure DlTrace where
  rangeReq : Option Nat
  appendMode : Bool
  fs : Fs
  result : DlResult
deriving DecidableEq

/-- `download_with_resume(session, url, out_path, referer)`.
Statement order follows the source: size probe, optional Range header,
one GET, mode choice (`"ab"` iff resuming and 206), unlink of the stale
temporary file in `"wb"` mode, `raise_for_status`, chunkwise write,
`tmp.replace(out_path)`.  The function body has no `return`, so the
Python return value is `None`. -/
def download_with_resume (server : Option Nat → HttpResponse) (fs0 : Fs) : DlTrace :=
  let existing : Nat := (fs0.tmp.getD []).length
  let rangeReq : Option Nat := if 0 < existing then some existing else none
  let r := server rangeReq
  let appendMode : Bool := decide (0 < existing ∧ r.status = 206)
  let fs1 : Fs := if appendMode = false ∧ fs0.tmp ≠ none then { fs0 with tmp := none } else fs0
  if 400 ≤ r.status ∧ r.status < 600 then
    ⟨rangeReq, appendMode, fs1, .httpError r.status⟩
  else
    let base : List Nat := if appendMode then fs0.tmp.getD [] else []
    let written := base ++ r.chunks.flatten
    if r.streamOk then
      ⟨rangeReq, appendMode, { tmp := none, dest := some written }, .ok none⟩
    else
      ⟨rangeReq, appendMode, { fs1 with tmp := some written }, .streamError⟩

/-! ### `urllib.parse` (used by `strip_query` in `soundcloud.py` and
`guess_ext_from_url` in `podkaszt_hu.py`)
Modelled from CPython `Lib/urllib/parse.py` (the 3.8–3.10 behaviour:
tab/CR/LF removal, scheme/netloc/fragment/query splitting, the IPv6
bracket-mismatch `ValueError` as `none`; the NFKC netloc check, which can
only reject non-ASCII authorities, is not modelled). -/

/-- The bytes `urlsplit` removes from the URL before parsing. -/
def unsafeUrlChar (c : Char) : Bool := c == '\t' || c == '\r' || c == '\n'

def isAsciiAlpha (c : Char) : Bool :=
  decide ((97 ≤ c.toNat ∧ c.toNat ≤ 122) ∨ (65 ≤ c.toNat ∧ c.toNat ≤ 90))

def isAsciiDigit (c : Char) : Bool := decide (48 ≤ c.toNat ∧ c.toNat ≤ 57)

/-- `scheme_chars` from `urllib.parse`. -/
def isSchemeChar (c : Char) : Bool :=
  isAsciiAlpha c || isAsciiDigit c || c == '+' || c == '-' || c == '.'

/-- Split a list at the first occurrence of `c`: `some (before, after)`
with the separator removed, or `none` when `c` does not occur. -/
def splitFirst (c : Char) : Str → Option (Str × Str)
  | [] => none
  | x :: xs =>
    if x = c then some ([], xs)
    else match splitFirst c xs with
      | none => none
      | some (a, b) => some (x :: a, b)

/-- The scheme detection of `urlsplit`: take everything before the first
`:` as the scheme iff it is nonempty, starts with an ASCII letter and
consists of scheme characters; the scheme is lowercased. -/
def splitSchemePart (u : Str) : Str × Str :=
  match splitFirst ':' u with
  | none => ([], u)
  | some (pre, post) =>
    if pre ≠ [] ∧ isAsciiAlpha (pre.headD ' ') ∧ pre.all isSchemeChar then
      (pyLower pre, post)
    else ([], u)

/-- Delimiters ending the netloc in `_splitnetloc`. -/
def netlocDelim (c : Char) : Bool := c == '/' || c == '?' || c == '#'

/-- The five fields of a `SplitResult`. -/
structure SplitResult where
  scheme : Str
  netloc : Str
  path : Str
  query : Str
  fragment : Str
deriving DecidableEq

/-- The removal of `_UNSAFE_URL_BYTES_TO_REMOVE` before parsing. -/
def removeUnsafe (u : Str) : Str := u.filter (fun c => !unsafeUrlChar c)

/-- `_splitnetloc` guarded by the `url[:2] == '//'` check: the netloc is
everything after the two slashes up to the first `/`, `?` or `#`, and the
remainder keeps its delimiter. -/
def splitNetlocPart (u : Str) : Str × Str :=
  if u.take 2 = toL "//" then
    ((u.drop 2).takeWhile (fun c => !netlocDelim c),
     (u.drop 2).dropWhile (fun c => !netlocDelim c))
  else ([], u)

/-- `url.split('#', 1)` guarded by `'#' in url`. -/
def splitFragmentPart (u : Str) : Str × Str :=
  match splitFirst '#' u with
  | none => (u, [])
  | some (a, b) => (a, b)

/-- `url.split('?', 1)` guarded by `'?' in url`. -/
def splitQueryPart (u : Str) : Str × Str :=
  match splitFirst '?' u with
  | none => (u, [])
  | some (a, b) => (a, b)

/-- The mismatched-IPv6-bracket condition that makes `urlsplit` raise. -/
def bracketMismatch (n : Str) : Prop :=
  (('[' : Char) ∈ n ∧ (']' : Char) ∉ n) ∨ ((']' : Char) ∈ n ∧ ('[' : Char) ∉ n)

instance (n : Str) : Decidable (bracketMismatch n) := by
  unfold bracketMismatch; infer_instance

/-- `urlsplit(url)` (with `allow_fragments=True`); `none` models the
`ValueError` raised on a netloc with mismatched IPv6 brackets. -/
def pyUrlsplit (u0 : Str) : Option SplitResult :=
  let u1 := removeUnsafe u0
  let sp := splitSchemePart u1
  let nl := splitNetlocPart sp.2
  if bracketMismatch nl.1 then none
  else
    let fr := splitFragmentPart nl.2
    let qu := splitQueryPart fr.1
    some ⟨sp.1, nl.1, qu.1, qu.2, fr.2⟩

/-- `_splitparams(url)`: split off `;params` from the last path segment
(the first `;` at or after the last `/`), or from the whole string when it
has no `/`.  Unchanged when that region has no `;`. -/
def splitParams (url : Str) : Str × Str :=
  if ('/' : Char) ∈ url then
    match splitFirst ';' ((url.reverse.takeWhile (fun c => c != '/')).reverse) with
    | none => (url, [])
    | some (a, b) =>
      (url.take (url.length - ((url.reverse.takeWhile (fun c => c != '/')).reverse).length) ++ a, b)
  else
    match splitFirst ';' url with
    | none => (url, [])
    | some (a, b) => (a, b)

/-- `uses_params` from `urllib.parse`. -/
def uses_params : List Str :=
  [toL "", toL "ftp", toL "hdl", toL "prospero", toL "http", toL "imap",
   toL "https", toL "shttp", toL "rtsp", toL "rtspu", toL "sip", toL "sips",
   toL "mms", toL "sftp", toL "tel"]

/-- The six fields of a `ParseResult`. -/
structure ParseResult where
  scheme : Str
  netloc : Str
  path : Str
  params : Str
  query : Str
  fragment : Str
deriving DecidableEq

/-- `urlparse(url)`: `urlsplit` plus the params split, which only happens
for schemes in `uses_params` (including the empty scheme) when the path
contains a `;`. -/
def pyUrlparse (u : Str) : Option ParseResult :=
  (pyUrlsplit u).map fun r =>
    if r.scheme ∈ uses_params ∧ (';' : Char) ∈ r.path then
      let p := splitParams r.path
      ⟨r.scheme, r.netloc, p.1, p.2, r.query, r.fragment⟩
    else ⟨r.scheme, r.netloc, r.path, [], r.query, r.fragment⟩

/-- `urlunsplit((scheme, netloc, url, query, fragment))`. -/
def urlunsplit (scheme netloc path query fragment : Str) : Str :=
  let url1 :=
    if netloc ≠ [] ∨ path.take 2 = toL "//" then
      toL "//" ++ netloc ++ (if path ≠ [] ∧ path.take 1 ≠ toL "/" then '/' :: path else path)
    else path
  let url2 := if scheme ≠ [] then scheme ++ ':' :: url1 else url1
  let url3 := if query ≠ [] then url2 ++ '?' :: query else url2
  if fragment ≠ [] then url3 ++ '#' :: fragment else url3

/-- `strip_query(url)` from `soundcloud.py`:
`urlunparse((p.scheme, p.netloc, p.path, "", "", ""))` — with empty params,
`urlunparse` reduces to `urlunsplit` with empty query and fragment. -/
def strip_query (u : Str) : Option Str :=
  (pyUrlparse u).map fun p => urlunsplit p.scheme p.netloc p.path [] []

/-- `guess_ext_from_url(url)` from `podkaszt_hu.py`: the extension of
`urlparse(url).path`, lowercased, defaulting to ".mp3" unless it is a
known audio extension. -/
def guess_ext_from_url (url : Str) : Option Str :=
  (pyUrlparse url).map fun p =>
    let ext := pyLower (pySplitext p.path).2
    if ext ∈ AUDIO_EXTS then ext else toL ".mp3"

example : strip_query (toL "https://soundcloud.com/a/b?in=x#t") =
    some (toL "https://soundcloud.com/a/b") := by decide
example : strip_query (toL "HTTP://Host/x;p?q") = some (toL "http://Host/x") := by decide
example : strip_query (toL "//h/x") = some (toL "//h/x") := by decide
example : strip_query (toL "a:b") = some (toL "a:b") := by decide
example : strip_query (toL "1a:b") = some (toL "1a:b") := by decide
example : strip_query (toL "////x") = some (toL "////x") := by decide
example : strip_query (toL "http://[::1/x") = none := by decide
example : guess_ext_from_url (toL "https://h/a/b.MP3?tok=1") = some (toL ".mp3") := by decide
example : guess_ext_from_url (toL "https://h/a/b.html") = some (toL ".mp3") := by decide

/-! ### The per-episode part of `main` (`podkaszt_hu.py` lines 596–725)
DOM interactions and the network are oracles supplied per row; the visited
store and the `timeouts.txt` failure log are explicit accumulators. -/

/-- Outcome of one `download_with_resume` call inside the retry loop:
normal return, `OSError` with `errno == 36` (name too long), or any other
exception (whose message becomes `last_err`). -/
inductive FsTry where
  | ok
  | nameTooLong
  | fail (msg : Str)
deriving DecidableEq

/-- State when the download retry loop finishes. -/
structure LoopResult where
  downloadedOk : Bool
  filename : Str
  lastErr : Str
  attempts : Nat
deriving DecidableEq

/-- The `for _fs_try in range(6)` download loop: an `errno 36` failure
halves the filename and continues; success or any other error breaks.
`used` counts the attempts made so far. -/
def downloadRetryLoop (attempt : Nat → Str → FsTry) (name_max path_max : Nat)
    (out_dir : Str) : Nat → Nat → Str → Str → LoopResult
  | 0, used, fn, lastErr => ⟨false, fn, lastErr, used⟩
  | fuel + 1, used, fn, lastErr =>
    match attempt used fn with
    | .ok => ⟨true, fn, lastErr, used + 1⟩
    | .nameTooLong =>
      downloadRetryLoop attempt name_max path_max out_dir fuel (used + 1)
        (halve_filename_fallback name_max path_max out_dir fn) lastErr
    | .fail msg => ⟨false, fn, msg, used + 1⟩

/-- Outcome of one `out_path.exists() and out_path.stat().st_size > 0`
probe: a value, `errno 36`, or another `OSError` (which `main` re-raises). -/
inductive ExistsOutcome where
  | value (nonempty : Bool)
  | nameTooLong
  | hardError (msg : Str)
deriving DecidableEq

/-- The `for _fs_try in range(6)` existence-probe loop; when the loop
exhausts all its tries `exists_nonempty` keeps its initial `False`. -/
def existsRetryLoop (check : Nat → Str → ExistsOutcome) (name_max path_max : Nat)
    (out_dir : Str) : Nat → Nat → Str → Except Str (Bool × Str)
  | 0, _, fn => .ok (false, fn)
  | fuel + 1, used, fn =>
    match check used fn with
    | .value b => .ok (b, fn)
    | .nameTooLong =>
      existsRetryLoop check name_max path_max out_dir fuel (used + 1)
        (halve_filename_fallback name_max path_max out_dir fn)
    | .hardError msg => .error msg

/-- One line of `timeouts.txt` as written by `append_timeout`. -/
structure TimeoutEntry where
  filename : Str
  date : Str
  producer : Str
  title : Str
  episode_key : Str
  reason : Str
deriving DecidableEq

/-- The reason sanitization in `append_timeout`: newlines become spaces,
then whitespace is stripped. -/
def cleanReason (r : Str) : Str :=
  pyStripP isPySpace (r.map (fun c => if c = '\n' ∨ c = '\r' then ' ' else c))

/-- One table row together with the oracles for the effects its
processing performs. -/
structure RowInput where
  title : Str
  producer : Str
  date : Str
  colsOk : Bool
  selectOk : Bool
  selectErrMsg : Str
  audioUrl : Option Str
  existsCheck : Nat → Str → ExistsOutcome
  attempt : Nat → Str → FsTry

/-- How one row's processing ended. -/
inductive RowOutcome where
  | skippedCols
  | skippedEmpty
  | skippedVisited
  | selectFailed
  | noAudio
  | alreadyExists
  | downloaded
  | downloadFailed
deriving DecidableEq

/-- Observable effect of one row: its outcome, the key appended to the
visited store (if any), and the failure-log line written (if any). -/
structure RowEffect where
  outcome : RowOutcome
  visitedAdd : Option Str
  timeoutEntry : Option TimeoutEntry

/-- The download part of one row (`main`, lines 696–723): run the
halve-and-retry download loop; on success record the key as visited, on
failure write a failure-log line whose reason is `last_err or "download
failed"` and whose filename is the final `out_path.name`. -/
def downloadPhase (name_max path_max : Nat) (out_dir : Str) (row : RowInput)
    (episode_key fn : Str) : RowEffect :=
  let res := downloadRetryLoop row.attempt name_max path_max out_dir 6 0 fn []
  if res.downloadedOk then ⟨.downloaded, some episode_key, none⟩
  else
    ⟨.downloadFailed, none,
      some ⟨res.filename, row.date, row.producer, row.title, episode_key,
        cleanReason (if res.lastErr = [] then toL "download failed" else res.lastErr)⟩⟩

/-- The part of one row's processing after an audio URL has been resolved
(`main`, lines 669–723): extension guess, safe filename, the existence
probe with its halve-and-retry loop (whose non-ENAMETOOLONG `OSError` is
re-raised, aborting the run), then the download phase.  The uncaught
`ValueError` from `urlparse` on an invalid audio URL is the other
propagating exception. -/
def mediaPhase (name_max path_max : Nat) (out_dir : Str) (row : RowInput)
    (episode_key url : Str) : Except Str RowEffect :=
  match guess_ext_from_url url with
  | none => .error (toL "ValueError: Invalid IPv6 URL")
  | some ext =>
    match existsRetryLoop row.existsCheck name_max path_max out_dir 6 0
        (build_safe_filename name_max path_max out_dir row.producer row.title
          row.date episode_key ext) with
    | .error msg => .error msg
    | .ok (true, _fn) => .ok ⟨.alreadyExists, some episode_key, none⟩
    | .ok (false, fn) => .ok (downloadPhase name_max path_max out_dir row episode_key fn)

/-- Processing of one table row (`main`, lines 596–725): column/emptiness
guards, the visited check, title-click selection, audio-URL resolution,
then the media phase.  `.error` is an exception propagating out of the
row loop. -/
def processRow (name_max path_max : Nat) (out_dir : Str) (visited : List Str)
    (row : RowInput) : Except Str RowEffect :=
  if row.colsOk = false then .ok ⟨.skippedCols, none, none⟩
  else if row.title = [] ∨ row.producer = [] ∨ row.date = [] then
    .ok ⟨.skippedEmpty, none, none⟩
  else
    let episode_key := episodeKeyOf row.title row.producer row.date
    if episode_key ∈ visited then .ok ⟨.skippedVisited, none, none⟩
    else if row.selectOk = false then
      .ok ⟨.selectFailed, none,
        some ⟨build_safe_filename name_max path_max out_dir row.producer row.title
            row.date episode_key (toL ".mp3"),
          row.date, row.producer, row.title, episode_key,
          cleanReason (toL "select failed: " ++ row.selectErrMsg)⟩⟩
    else
      match row.audioUrl with
      | none =>
        .ok ⟨.noAudio, none,
          some ⟨build_safe_filename name_max path_max out_dir row.producer row.title
              row.date episode_key (toL ".mp3"),
            row.date, row.producer, row.title, episode_key, cleanReason (toL "no_audio")⟩⟩
      | some url => mediaPhase name_max path_max out_dir row episode_key url

/-- The row loop of one page: rows are processed in order, threading the
visited store; an `.error` from a row aborts the rest (this is the only
way a remaining row can go unprocessed). -/
def processRows (name_max path_max : Nat) (out_dir : Str) (visited : List Str) :
    List RowInput → Except Str (List RowEffect)
  | [] => .ok []
  | row :: rest =>
    match processRow name_max path_max out_dir visited row with
    | .error e => .error e
    | .ok eff =>
      let visited2 := match eff.visitedAdd with
        | some k => visited ++ [k]
        | none => visited
      match processRows name_max path_max out_dir visited2 rest with
      | .error e => .error e
      | .ok effs => .ok (eff :: effs)

/-! ### Length lemmas for the filename encoder -/

theorem usize_pos (c : Char) : 0 < usize c := by
  unfold usize; split_ifs <;> omega

theorem utf8Len_append (s t : Str) : utf8Len (s ++ t) = utf8Len s + utf8Len t := by
  induction s with
  | nil => simp [utf8Len]
  | cons c cs ih =>
    show utf8Len (c :: (cs ++ t)) = utf8Len (c :: cs) + utf8Len t
    simp only [utf8Len, ih]
    omega

theorem utf8Len_reverse (s : Str) : utf8Len s.reverse = utf8Len s := by
  induction s with
  | nil => rfl
  | cons c cs ih =>
    simp only [List.reverse_cons, utf8Len_append, utf8Len, ih]; omega

theorem utf8Len_dropWhile_le (p : Char → Bool) (s : Str) :
    utf8Len (s.dropWhile p) ≤ utf8Len s := by
  induction s with
  | nil => simp [List.dropWhile]
  | cons c cs ih =>
    by_cases h : p c
    · simp only [List.dropWhile, h]
      have := usize_pos c
      simp only [utf8Len]; omega
    · simp [List.dropWhile, h]

theorem utf8Len_pyRstripP_le (p : Char → Bool) (s : Str) :
    utf8Len (pyRstripP p s) ≤ utf8Len s := by
  unfold pyRstripP
  calc utf8Len (s.reverse.dropWhile p).reverse = utf8Len (s.reverse.dropWhile p) :=
        utf8Len_reverse _
    _ ≤ utf8Len s.reverse := utf8Len_dropWhile_le p s.reverse
    _ = utf8Len s := utf8Len_reverse s

theorem utf8Len_takeUtf8_le (m : Nat) (s : Str) : utf8Len (takeUtf8 m s) ≤ m := by
  induction s generalizing m with
  | nil => simp [takeUtf8, utf8Len]
  | cons c cs ih =>
    simp only [takeUtf8]
    split_ifs with h
    · have := ih (m - usize c)
      simp only [utf8Len]; omega
    · simp [utf8Len]

theorem trim_utf8_le (t : Str) (m : Nat) (suf : Str) :
    utf8Len (trim_utf8_to_bytes t m suf) ≤ m := by
  unfold trim_utf8_to_bytes
  split_ifs with h0 h1 h2
  · simp [utf8Len]
  · exact h1
  · exact utf8Len_takeUtf8_le m suf
  · rw [utf8Len_append]
    have h3 := utf8Len_pyRstripP_le isTrimPunct (takeUtf8 (m - utf8Len suf) t)
    have h4 := utf8Len_takeUtf8_le (m - utf8Len suf) t
    omega

theorem takeUtf8_prefix (m : Nat) (s : Str) : takeUtf8 m s <+: s := by
  induction s generalizing m with
  | nil => simp [takeUtf8]
  | cons c cs ih =>
    simp only [takeUtf8]
    split_ifs with h
    · obtain ⟨r, hr⟩ := ih (m - usize c)
      exact ⟨r, by rw [List.cons_append, hr]⟩
    · exact List.nil_prefix

theorem encodeUtf8_append (s t : Str) :
    encodeUtf8 (s ++ t) = encodeUtf8 s ++ encodeUtf8 t := by
  induction s with
  | nil => rfl
  | cons c cs ih =>
    show encodeUtf8 (c :: (cs ++ t)) = encodeUtf8 (c :: cs) ++ encodeUtf8 t
    simp only [encodeUtf8, ih, List.append_assoc]

/-- A character-prefix keeps a byte-prefix of the UTF-8 encoding: no cut
point of `takeUtf8` ever lands inside a multi-byte character. -/
theorem encodeUtf8_takeUtf8_prefix (m : Nat) (s : Str) :
    encodeUtf8 (takeUtf8 m s) <+: encodeUtf8 s := by
  obtain ⟨r, hr⟩ := takeUtf8_prefix m s
  calc encodeUtf8 (takeUtf8 m s)
      <+: encodeUtf8 (takeUtf8 m s) ++ encodeUtf8 r := List.prefix_append _ _
    _ = encodeUtf8 (takeUtf8 m s ++ r) := (encodeUtf8_append _ _).symm
    _ = encodeUtf8 s := by rw [hr]

/-- Shape of `trim_utf8_to_bytes`: the text unchanged, a character-prefix
of the suffix, or the rstripped form of a character-prefix of the text
followed by the suffix — never anything cut inside a character. -/
theorem trim_utf8_shape (t : Str) (m : Nat) (suf : Str) :
    trim_utf8_to_bytes t m suf = t ∨
    (∃ p, p <+: suf ∧ trim_utf8_to_bytes t m suf = p) ∨
    (∃ p, p <+: t ∧ trim_utf8_to_bytes t m suf = pyRstripP isTrimPunct p ++ suf) := by
  unfold trim_utf8_to_bytes
  split_ifs with h0 h1 h2
  · exact Or.inr (Or.inl ⟨[], List.nil_prefix, rfl⟩)
  · exact Or.inl rfl
  · exact Or.inr (Or.inl ⟨takeUtf8 m suf, takeUtf8_prefix m suf, rfl⟩)
  · exact Or.inr (Or.inr ⟨takeUtf8 (m - utf8Len suf) t,
      takeUtf8_prefix _ t, rfl⟩)

theorem normExtBuild_mem (e : Str) : normExtBuild e ∈ AUDIO_EXTS := by
  simp only [normExtBuild]
  split_ifs with h
  · exact h
  · decide

theorem audio_exts_len : ∀ e ∈ AUDIO_EXTS, 4 ≤ utf8Len e ∧ utf8Len e ≤ 5 := by decide

theorem utf8Len_TMP_SUFFIX : utf8Len TMP_SUFFIX = 5 := by decide

theorem utf8Len_pathJoin_le (d f : Str) :
    utf8Len (pathJoin d f) ≤ utf8Len d + 1 + utf8Len f := by
  unfold pathJoin
  split_ifs with h1 h2
  · rw [utf8Len_append]; omega
  · omega
  · rw [utf8Len_append, utf8Len_append]
    have : utf8Len (toL "/") = 1 := by decide
    omega

/-- C9: for every input string (including empty or all-whitespace /
dot / underscore / illegal content), `slugify` returns a non-empty
string; whenever the sanitize pipeline leaves nothing, the result is the
fallback "untitled". -/
theorem slugify_nonempty (maxLen : Nat) (name : Str) :
    slugify maxLen name ≠ [] ∧
    (slugifyCore maxLen name = [] → slugify maxLen name = toL "untitled") := by
  constructor
  · simp only [slugify]
    split_ifs with h
    · decide
    · exact h
  · intro h
    simp [slugify, h]

theorem slugify_nonempty_witness :
    slugify 4000 (toL " ._ ") = toL "untitled" :=
  (slugify_nonempty 4000 (toL " ._ ")).2 (by decide)

/-- C1 (amended): with the typical Linux limits NAME_MAX = 255 and
PATH_MAX = 4096 (also the code's fallbacks), for every title, producer,
date, episode key and extension, and every output directory short enough
to leave room for a separator, a one-byte stem, an extension and the
".part" suffix (UTF-8 length at most PATH_MAX − 12), the filename
returned by `build_safe_filename` is at most NAME_MAX bytes and the full
and temporary paths are at most PATH_MAX bytes; moreover every truncation
done by `trim_utf8_to_bytes` cuts at character boundaries only: its
output is the input itself, a character-prefix of the suffix, or the
rstripped form of a character-prefix of the input followed by the suffix,
and a character-prefix always keeps a byte-prefix of the UTF-8 encoding
(no multi-byte character is ever split).  For longer output directories
the PATH_MAX bound fails — see the counterexample theorem. -/
theorem build_safe_filename_limits (out_dir producer title date key ext0 : Str)
    (hd : utf8Len out_dir + 12 ≤ 4096) :
    utf8Len (build_safe_filename 255 4096 out_dir producer title date key ext0) ≤ 255 ∧
    utf8Len (pathJoin out_dir
      (build_safe_filename 255 4096 out_dir producer title date key ext0)) ≤ 4096 ∧
    utf8Len (pathJoin out_dir
      (build_safe_filename 255 4096 out_dir producer title date key ext0 ++
        TMP_SUFFIX)) ≤ 4096 ∧
    (∀ t m suf, trim_utf8_to_bytes t m suf = t ∨
      (∃ p, p <+: suf ∧ trim_utf8_to_bytes t m suf = p) ∨
      (∃ p, p <+: t ∧ trim_utf8_to_bytes t m suf = pyRstripP isTrimPunct p ++ suf)) ∧
    (∀ m s, encodeUtf8 (takeUtf8 m s) <+: encodeUtf8 s) := by
  have hbounds :
      utf8Len (build_safe_filename 255 4096 out_dir producer title date key ext0) ≤ 255 ∧
      utf8Len (pathJoin out_dir
        (build_safe_filename 255 4096 out_dir producer title date key ext0)) ≤ 4096 ∧
      utf8Len (pathJoin out_dir
        (build_safe_filename 255 4096 out_dir producer title date key ext0 ++
          TMP_SUFFIX)) ≤ 4096 := by
    simp only [build_safe_filename]
    set ext := normExtBuild ext0 with hext
    set stem := buildStem producer title date key with hstem
    have hextlen : 4 ≤ utf8Len ext ∧ utf8Len ext ≤ 5 :=
      audio_exts_len ext (hext ▸ normExtBuild_mem ext0)
    set tailB := utf8Len (ext ++ TMP_SUFFIX) with htailB
    have htl : tailB = utf8Len ext + 5 := by
      rw [htailB, utf8Len_append, utf8Len_TMP_SUFFIX]
    set msA := max 1 (255 - tailB) with hmsA
    set ssA := trim_utf8_to_bytes stem msA (toL "___") with hssA
    have hss1 : utf8Len ssA ≤ msA := by rw [hssA]; exact trim_utf8_le _ _ _
    set pfxB := utf8Len (out_dir ++ toL "/") with hpfxB
    have hpfx : pfxB = utf8Len out_dir + 1 := by
      rw [hpfxB, utf8Len_append]
      have h1 : utf8Len (toL "/") = 1 := by decide
      omega
    set msB := max 1 (max 1 (4096 - pfxB) - tailB) with hmsB
    set ssB := trim_utf8_to_bytes stem msB (toL "___") with hssB
    have hss2 : utf8Len ssB ≤ msB := by rw [hssB]; exact trim_utf8_le _ _ _
    have ha1 : utf8Len (ssA ++ ext) = utf8Len ssA + utf8Len ext := utf8Len_append _ _
    have ha2 : utf8Len (ssA ++ ext ++ TMP_SUFFIX) = utf8Len ssA + utf8Len ext + 5 := by
      rw [utf8Len_append, utf8Len_append, utf8Len_TMP_SUFFIX]
    have hb1 : utf8Len (ssB ++ ext) = utf8Len ssB + utf8Len ext := utf8Len_append _ _
    have hb2 : utf8Len (ssB ++ ext ++ TMP_SUFFIX) = utf8Len ssB + utf8Len ext + 5 := by
      rw [utf8Len_append, utf8Len_append, utf8Len_TMP_SUFFIX]
    split_ifs with htrig
    · have hj1 := utf8Len_pathJoin_le out_dir (ssA ++ ext)
      have hj2 := utf8Len_pathJoin_le out_dir (ssA ++ ext ++ TMP_SUFFIX)
      have hj3 := utf8Len_pathJoin_le out_dir (ssB ++ ext)
      have hj4 := utf8Len_pathJoin_le out_dir (ssB ++ ext ++ TMP_SUFFIX)
      refine ⟨by omega, by omega, by omega⟩
    · push_neg at htrig
      exact ⟨by omega, htrig.1, htrig.2⟩
  exact ⟨hbounds.1, hbounds.2.1, hbounds.2.2,
    fun t m suf => trim_utf8_shape t m suf,
    fun m s => encodeUtf8_takeUtf8_prefix m s⟩

theorem build_safe_filename_limits_witness :
    utf8Len (toL "podcasts") + 12 ≤ 4096 ∧
    utf8Len (build_safe_filename 255 4096 (toL "podcasts") (toL "Radio X")
      (toL "Late Night Show") (toL "2024-03-01") (toL "d0c4") (toL ".mp3")) ≤ 255 :=
  ⟨by decide,
   (build_safe_filename_limits (toL "podcasts") (toL "Radio X") (toL "Late Night Show")
      (toL "2024-03-01") (toL "d0c4") (toL ".mp3") (by decide)).1⟩

theorem utf8Len_replicate_one (n : Nat) (c : Char) (h : usize c = 1) :
    utf8Len (List.replicate n c) = n := by
  induction n with
  | zero => rfl
  | succ k ih => simp [List.replicate_succ, utf8Len, h, ih]; omega

/-- On a directory of byte length 4091 (other than "/" and "."), with the
small sample inputs, `build_safe_filename` lands in its PATH_MAX re-trim
branch with a stem budget of one byte and returns "_.mp3". -/
theorem build_small_inputs_long_dir (d : Str) (h1 : utf8Len d = 4091)
    (h2 : d ≠ toL "/") (h3 : d ≠ toL ".") :
    build_safe_filename 255 4096 d (toL "p") (toL "t") (toL "2024-01-02")
      (toL "k") (toL ".mp3") = toL "_.mp3" := by
  have hpj : ∀ f : Str, utf8Len (pathJoin d f) = 4092 + utf8Len f := by
    intro f
    unfold pathJoin
    rw [if_neg h2, if_neg h3, utf8Len_append, utf8Len_append, h1]
    have : utf8Len (toL "/") = 1 := by decide
    omega
  simp only [build_safe_filename]
  have hext : normExtBuild (toL ".mp3") = toL ".mp3" := by decide
  rw [hext]
  have hstem : buildStem (toL "p") (toL "t") (toL "2024-01-02") (toL "k") =
      toL "p - t - 2024-01-02 [k]" := by decide
  rw [hstem]
  have htail : utf8Len (toL ".mp3" ++ TMP_SUFFIX) = 9 := by decide
  rw [htail]
  have hmsA : max 1 (255 - 9) = 246 := by decide
  rw [hmsA]
  have htrimA : trim_utf8_to_bytes (toL "p - t - 2024-01-02 [k]") 246 (toL "___") =
      toL "p - t - 2024-01-02 [k]" := by decide
  rw [htrimA]
  have hcond : 4096 < utf8Len (pathJoin d (toL "p - t - 2024-01-02 [k]" ++ toL ".mp3")) ∨
      4096 < utf8Len (pathJoin d ((toL "p - t - 2024-01-02 [k]" ++ toL ".mp3") ++
        TMP_SUFFIX)) := by
    left
    rw [hpj]
    have : utf8Len (toL "p - t - 2024-01-02 [k]" ++ toL ".mp3") = 26 := by decide
    omega
  rw [if_pos hcond]
  have hpfx : utf8Len (d ++ toL "/") = 4092 := by
    rw [utf8Len_append, h1]
    have : utf8Len (toL "/") = 1 := by decide
    omega
  rw [hpfx]
  have hms2 : max 1 (max 1 (4096 - 4092) - 9) = 1 := by decide
  rw [hms2]
  have htrimB : trim_utf8_to_bytes (toL "p - t - 2024-01-02 [k]") 1 (toL "___") =
      toL "_" := by decide
  rw [htrimB]
  decide

/-- C1 counterexample: the claim quantifies over every output directory,
but for a 4091-byte directory name the full path of the returned filename
has 4097 > 4096 = PATH_MAX bytes (the re-trim branch cannot shrink the
stem below one byte plus the extension). -/
theorem build_safe_filename_path_overflow :
    4096 < utf8Len (pathJoin (List.replicate 4091 'a')
      (build_safe_filename 255 4096 (List.replicate 4091 'a') (toL "p") (toL "t")
        (toL "2024-01-02") (toL "k") (toL ".mp3"))) := by
  have h1 : utf8Len (List.replicate 4091 'a') = 4091 :=
    utf8Len_replicate_one 4091 'a' (by decide)
  have h2 : List.replicate 4091 'a' ≠ toL "/" := by
    intro h
    have hl := congrArg List.length h
    rw [List.length_replicate] at hl
    have h1' : (toL "/").length = 1 := by decide
    omega
  have h3 : List.replicate 4091 'a' ≠ toL "." := by
    intro h
    have hl := congrArg List.length h
    rw [List.length_replicate] at hl
    have h1' : (toL ".").length = 1 := by decide
    omega
  rw [build_small_inputs_long_dir _ h1 h2 h3]
  have hpj : utf8Len (pathJoin (List.replicate 4091 'a') (toL "_.mp3")) =
      4092 + utf8Len (toL "_.mp3") := by
    unfold pathJoin
    rw [if_neg h2, if_neg h3, utf8Len_append, utf8Len_append, h1]
    have : utf8Len (toL "/") = 1 := by decide
    omega
  rw [hpj]
  decide

theorem trim_marker_cases (t : Str) (m : Nat) (h : 3 < m) :
    trim_utf8_to_bytes t m (toL "___") = t ∨
    ∃ x, trim_utf8_to_bytes t m (toL "___") = x ++ toL "___" := by
  unfold trim_utf8_to_bytes
  split_ifs with h0 h1 h2
  · omega
  · exact Or.inl rfl
  · have h3 : utf8Len (toL "___") = 3 := by decide
    omega
  · exact Or.inr ⟨_, rfl⟩

/-- C4 (amended): with the typical limits NAME_MAX = 255, PATH_MAX = 4096,
whenever the returned filename's stem is shorter (in UTF-8 bytes) than the
sanitized untruncated stem — i.e. truncation occurred — the filename ends
with the marker "___" immediately before the (normalized) extension,
provided the output directory leaves the re-trim branch a stem budget of
at least the marker plus one byte (UTF-8 length at most PATH_MAX − 15).
For longer directories the budget can fall below the marker size and the
marker is dropped — see the counterexample theorem. -/
theorem build_safe_filename_marker (out_dir producer title date key ext0 : Str)
    (hd : utf8Len out_dir + 15 ≤ 4096) :
    utf8Len (build_safe_filename 255 4096 out_dir producer title date key ext0) <
      utf8Len (buildStem producer title date key) + utf8Len (normExtBuild ext0) →
    (toL "___" ++ normExtBuild ext0) <:+
      build_safe_filename 255 4096 out_dir producer title date key ext0 := by
  simp only [build_safe_filename]
  set ext := normExtBuild ext0 with hext
  set stem := buildStem producer title date key with hstem
  have hextlen : 4 ≤ utf8Len ext ∧ utf8Len ext ≤ 5 :=
    audio_exts_len ext (hext ▸ normExtBuild_mem ext0)
  set tailB := utf8Len (ext ++ TMP_SUFFIX) with htailB
  have htl : tailB = utf8Len ext + 5 := by
    rw [htailB, utf8Len_append, utf8Len_TMP_SUFFIX]
  set pfxB := utf8Len (out_dir ++ toL "/") with hpfxB
  have hpfx : pfxB = utf8Len out_dir + 1 := by
    rw [hpfxB, utf8Len_append]
    have h1 : utf8Len (toL "/") = 1 := by decide
    omega
  split_ifs with htrig
  · have hm : 3 < max 1 (max 1 (4096 - pfxB) - tailB) := by omega
    rcases trim_marker_cases stem _ hm with hcase | ⟨x, hcase⟩
    · rw [hcase]
      intro hlt
      rw [utf8Len_append] at hlt
      omega
    · rw [hcase]
      intro _
      exact ⟨x, by rw [List.append_assoc]⟩
  · have hm : 3 < max 1 (255 - tailB) := by omega
    rcases trim_marker_cases stem _ hm with hcase | ⟨x, hcase⟩
    · rw [hcase]
      intro hlt
      rw [utf8Len_append] at hlt
      omega
    · rw [hcase]
      intro _
      exact ⟨x, by rw [List.append_assoc]⟩

set_option maxRecDepth 8000 in
theorem build_safe_filename_marker_witness :
    (toL "___" ++ normExtBuild (toL ".mp3")) <:+
      build_safe_filename 255 4096 (toL "podcasts") (toL "Radio X")
        (List.replicate 250 'x') (toL "2024-03-01") (toL "d0c4") (toL ".mp3") :=
  build_safe_filename_marker (toL "podcasts") (toL "Radio X") (List.replicate 250 'x')
    (toL "2024-03-01") (toL "d0c4") (toL ".mp3") (by decide) (by decide)

/-- C4 counterexample: with a 4091-byte output directory the re-trim
budget is a single byte, the returned filename is "_.mp3" — strictly
shorter than its untruncated stem plus extension, yet not ending in the
truncation marker before the extension. -/
theorem build_safe_filename_marker_missing :
    utf8Len (build_safe_filename 255 4096 (List.replicate 4091 'a') (toL "p")
        (toL "t") (toL "2024-01-02") (toL "k") (toL ".mp3")) <
      utf8Len (buildStem (toL "p") (toL "t") (toL "2024-01-02") (toL "k")) +
        utf8Len (normExtBuild (toL ".mp3")) ∧
    ¬ (toL "___" ++ normExtBuild (toL ".mp3")) <:+
      build_safe_filename 255 4096 (List.replicate 4091 'a') (toL "p") (toL "t")
        (toL "2024-01-02") (toL "k") (toL ".mp3") := by
  have h1 : utf8Len (List.replicate 4091 'a') = 4091 :=
    utf8Len_replicate_one 4091 'a' (by decide)
  have h2 : List.replicate 4091 'a' ≠ toL "/" := by
    intro h
    have hl := congrArg List.length h
    rw [List.length_replicate] at hl
    have h1' : (toL "/").length = 1 := by decide
    omega
  have h3 : List.replicate 4091 'a' ≠ toL "." := by
    intro h
    have hl := congrArg List.length h
    rw [List.length_replicate] at hl
    have h1' : (toL ".").length = 1 := by decide
    omega
  rw [build_small_inputs_long_dir _ h1 h2 h3]
  constructor
  · decide
  · decide

/-- C2: `download_with_resume` issues a Range request at offset N exactly
when the temporary file exists with size N > 0 (otherwise a full request);
it opens in append mode iff that resumed request is answered 206; in every
other case the stale temporary file is discarded and the body is written
from offset zero — in particular a resumed request answered 200 that
streams to completion yields a destination file equal to the full
response body, with no duplicated prefix. -/
theorem download_with_resume_range_semantics (server : Option Nat → HttpResponse)
    (fs0 : Fs) :
    (download_with_resume server fs0).rangeReq =
      (if 0 < (fs0.tmp.getD []).length then some (fs0.tmp.getD []).length else none) ∧
    ((download_with_resume server fs0).appendMode = true ↔
      (0 < (fs0.tmp.getD []).length ∧
        (server (download_with_resume server fs0).rangeReq).status = 206)) ∧
    ((download_with_resume server fs0).appendMode = false →
      ((download_with_resume server fs0).result = .ok none →
        (download_with_resume server fs0).fs.tmp = none ∧
        (download_with_resume server fs0).fs.dest =
          some (server (download_with_resume server fs0).rangeReq).chunks.flatten) ∧
      (∀ st, (download_with_resume server fs0).result = .httpError st →
        (download_with_resume server fs0).fs.tmp = none) ∧
      ((download_with_resume server fs0).result = .streamError →
        (download_with_resume server fs0).fs.tmp =
          some (server (download_with_resume server fs0).rangeReq).chunks.flatten)) ∧
    (0 < (fs0.tmp.getD []).length →
      (server (download_with_resume server fs0).rangeReq).status = 200 →
      (server (download_with_resume server fs0).rangeReq).streamOk = true →
      (download_with_resume server fs0).result = .ok none ∧
      (download_with_resume server fs0).fs.dest =
        some (server (download_with_resume server fs0).rangeReq).chunks.flatten) := by
  simp only [download_with_resume]
  split_ifs with h1 h2 h3 h4 h5 h6 h7 h8 <;>
    simp_all [decide_eq_true_eq] <;>
    first
      | (intros; omega)
      | exact ⟨by assumption, fun h => by omega⟩

theorem download_with_resume_range_semantics_witness :
    (download_with_resume (fun r => if r = some 2 then ⟨200, [[5, 6, 7]], true⟩
        else ⟨206, [[9]], true⟩) ⟨some [1, 2], none⟩).result = .ok none ∧
    (download_with_resume (fun r => if r = some 2 then ⟨200, [[5, 6, 7]], true⟩
        else ⟨206, [[9]], true⟩) ⟨some [1, 2], none⟩).fs.dest = some [5, 6, 7] := by
  have h := download_with_resume_range_semantics
    (fun r => if r = some 2 then ⟨200, [[5, 6, 7]], true⟩ else ⟨206, [[9]], true⟩)
    ⟨some [1, 2], none⟩
  have h4 := h.2.2.2 (by decide) (by decide) (by decide)
  exact ⟨h4.1, by rw [h4.2]; decide⟩

/-- C3 (amended): the destination is written only after the whole body has
streamed (rename-at-end); on a streaming failure the exception surfaces,
the destination is untouched and the temporary file is left in place
holding the bytes written so far; on an HTTP error status the exception
surfaces and the destination is untouched — but the temporary file is
already unlinked before `raise_for_status` runs whenever the response is
not a 206 (so a resumed request answered with an error status loses the
partial file, contrary to the original claim; see the counterexample). -/
theorem download_with_resume_error_handling (server : Option Nat → HttpResponse)
    (fs0 : Fs) :
    (∀ st, (download_with_resume server fs0).result = .httpError st →
      (download_with_resume server fs0).fs.dest = fs0.dest ∧
      (download_with_resume server fs0).fs.tmp = none) ∧
    ((download_with_resume server fs0).result = .streamError →
      (download_with_resume server fs0).fs.dest = fs0.dest ∧
      (download_with_resume server fs0).fs.tmp =
        some ((if (download_with_resume server fs0).appendMode = true
            then fs0.tmp.getD [] else []) ++
          (server (download_with_resume server fs0).rangeReq).chunks.flatten)) ∧
    ((download_with_resume server fs0).result = .ok none →
      (download_with_resume server fs0).fs.tmp = none ∧
      ∃ c, (download_with_resume server fs0).fs.dest = some c) ∧
    (400 ≤ (server (download_with_resume server fs0).rangeReq).status ∧
        (server (download_with_resume server fs0).rangeReq).status < 600 →
      (download_with_resume server fs0).result =
        .httpError (server (download_with_resume server fs0).rangeReq).status) ∧
    ((server (download_with_resume server fs0).rangeReq).streamOk = false →
      ¬ (400 ≤ (server (download_with_resume server fs0).rangeReq).status ∧
          (server (download_with_resume server fs0).rangeReq).status < 600) →
      (download_with_resume server fs0).result = .streamError) := by
  simp only [download_with_resume]
  split_ifs with h1 h2 h3 h4 h5 h6 h7 h8 <;>
    simp_all [decide_eq_true_eq]

theorem download_with_resume_error_handling_witness :
    (download_with_resume (fun _ => ⟨200, [[1, 2]], false⟩) ⟨none, none⟩).fs.dest = none ∧
    (download_with_resume (fun _ => ⟨200, [[1, 2]], false⟩) ⟨none, none⟩).fs.tmp =
      some [1, 2] := by
  have h := download_with_resume_error_handling (fun _ => ⟨200, [[1, 2]], false⟩)
    ⟨none, none⟩
  have hres : (download_with_resume (fun _ => ⟨200, [[1, 2]], false⟩)
      ⟨none, none⟩).result = .streamError := by decide
  have hb := h.2.1 hres
  exact ⟨hb.1, by rw [hb.2]; decide⟩

/-- C3 counterexample: a resumed request (temporary file holding one byte)
answered with a 404 surfaces the HTTP error — but the temporary file has
been deleted rather than left in place for a future resume. -/
theorem download_with_resume_deletes_part_on_http_error :
    (download_with_resume (fun _ => ⟨404, [], true⟩) ⟨some [7], none⟩).result =
      .httpError 404 ∧
    (download_with_resume (fun _ => ⟨404, [], true⟩) ⟨some [7], none⟩).fs.tmp = none := by
  decide

/-- C8 (amended): `download_with_resume` has no `return` statement: on a
normal completion its Python return value is `None`, not a byte count;
the number of bytes written is recoverable only as the content of the
destination file the call leaves behind. -/
theorem download_with_resume_returns_none (server : Option Nat → HttpResponse)
    (fs0 : Fs) :
    (∀ v, (download_with_resume server fs0).result = .ok v → v = none) ∧
    ((download_with_resume server fs0).result = .ok none →
      (download_with_resume server fs0).fs.dest =
        some ((if (download_with_resume server fs0).appendMode = true
            then fs0.tmp.getD [] else []) ++
          (server (download_with_resume server fs0).rangeReq).chunks.flatten)) := by
  simp only [download_with_resume]
  split_ifs with h1 h2 h3 h4 h5 h6 h7 h8 <;>
    simp_all [decide_eq_true_eq]

theorem download_with_resume_returns_none_witness :
    (download_with_resume (fun _ => ⟨200, [[1, 2, 3]], true⟩) ⟨none, none⟩).fs.dest =
      some [1, 2, 3] := by
  have h := download_with_resume_returns_none (fun _ => ⟨200, [[1, 2, 3]], true⟩)
    ⟨none, none⟩
  have hres : (download_with_resume (fun _ => ⟨200, [[1, 2, 3]], true⟩)
      ⟨none, none⟩).result = .ok none := by decide
  rw [h.2 hres]
  decide

/-- C8 counterexample: on a successful three-byte fetch the call returns
`None`, not the byte count 3 the claimed contract
`fetch(...) -> bytes_written` requires. -/
theorem download_with_resume_no_byte_count :
    (download_with_resume (fun _ => ⟨200, [[1, 2, 3]], true⟩) ⟨none, none⟩).result =
      .ok none ∧
    (download_with_resume (fun _ => ⟨200, [[1, 2, 3]], true⟩) ⟨none, none⟩).result ≠
      .ok (some 3) := by
  decide

theorem sha1Hex_length (msg : List Nat) : (sha1Hex msg).length = 40 := by
  unfold sha1Hex
  set d5 := sha1Digest msg with hd5
  rcases d5 with ⟨a, b, c, d, e⟩
  simp [hexWord8]

theorem hexDigit_mem_of_lt (m : Nat) (hm : m < 16) :
    hexDigit m ∈ toL "0123456789abcdef" := by
  interval_cases m <;> decide

theorem hexWord8_mem (x : Nat) : ∀ c ∈ hexWord8 x, c ∈ toL "0123456789abcdef" := by
  intro c hc
  simp only [hexWord8, List.mem_cons, List.not_mem_nil, or_false] at hc
  rcases hc with h | h | h | h | h | h | h | h <;>
    (subst h; exact hexDigit_mem_of_lt _ (Nat.mod_lt _ (by norm_num)))

theorem sha1Hex_hex_chars (msg : List Nat) :
    ∀ c ∈ sha1Hex msg, c ∈ toL "0123456789abcdef" := by
  unfold sha1Hex
  set d5 := sha1Digest msg with hd5
  rcases d5 with ⟨a, b, c, d, e⟩
  intro x hx
  simp only [List.mem_append] at hx
  rcases hx with ((((h | h) | h) | h) | h) <;> exact hexWord8_mem _ _ h

/-- C6: the episode key is the SHA-1 hex digest of the UTF-8 encoding of
"title|producer|date" — the full 160-bit digest (40 lowercase hex
characters, never truncated) — and the derivation is deterministic:
re-scanning an episode with equal title, producer and date always yields
the identical key. -/
theorem episode_key_full_sha1 (title producer date : Str) :
    episodeKeyOf title producer date =
      sha1Hex (encodeUtf8 (title ++ toL "|" ++ producer ++ toL "|" ++ date)) ∧
    (episodeKeyOf title producer date).length = 40 ∧
    (∀ c ∈ episodeKeyOf title producer date, c ∈ toL "0123456789abcdef") ∧
    ∀ t2 p2 d2, t2 = title → p2 = producer → d2 = date →
      episodeKeyOf t2 p2 d2 = episodeKeyOf title producer date := by
  refine ⟨rfl, sha1Hex_length _, sha1Hex_hex_chars _, ?_⟩
  intro t2 p2 d2 ht hp hd
  rw [ht, hp, hd]

theorem episode_key_full_sha1_witness :
    (episodeKeyOf (toL "Late Night Show") (toL "Radio X") (toL "2024-03-01")).length = 40 :=
  (episode_key_full_sha1 (toL "Late Night Show") (toL "Radio X") (toL "2024-03-01")).2.1

theorem usize_one_of_lower (c : Char) (h : usize (lowerChar c) = 1) : usize c = 1 := by
  unfold lowerChar at h
  split_ifs at h with hc
  · unfold usize
    have hlt : c.toNat < 0x80 := by omega
    simp [hlt]
  · exact h

theorem utf8Len_eq_length_of_one (s : Str) (h : ∀ c ∈ s, usize c = 1) :
    utf8Len s = s.length := by
  induction s with
  | nil => rfl
  | cons c cs ih =>
    simp only [utf8Len, List.length_cons]
    rw [h c (List.mem_cons_self _ _), ih (fun x hx => h x (List.mem_cons_of_mem _ hx))]
    omega

theorem audio_exts_ascii : ∀ x ∈ AUDIO_EXTS, ∀ c ∈ x, usize c = 1 := by decide

theorem halveExt_len (fn : Str) :
    4 ≤ utf8Len (halveExt fn) ∧ utf8Len (halveExt fn) ≤ 5 := by
  simp only [halveExt]
  split_ifs with h1 h2
  · decide
  · have hlp := audio_exts_len _ h2
    have hone : ∀ c ∈ pyLower (pySplitext fn).2, usize c = 1 :=
      fun c hc => audio_exts_ascii _ h2 c hc
    have hlen1 : utf8Len (pyLower (pySplitext fn).2) = (pyLower (pySplitext fn).2).length :=
      utf8Len_eq_length_of_one _ hone
    have hlen2 : (pyLower (pySplitext fn).2).length = (pySplitext fn).2.length :=
      List.length_map _ _
    have hone2 : ∀ c ∈ (pySplitext fn).2, usize c = 1 := by
      intro c hc
      exact usize_one_of_lower c (hone (lowerChar c) (List.mem_map_of_mem _ hc))
    have hlen3 : utf8Len (pySplitext fn).2 = (pySplitext fn).2.length :=
      utf8Len_eq_length_of_one _ hone2
    omega
  · decide

theorem halve_bounds (out_dir fn : Str) (hd : utf8Len out_dir + 12 ≤ 4096) :
    (∃ s, halve_filename_fallback 255 4096 out_dir fn = s ++ halveExt fn ∧
      utf8Len s ≤ max 1 (utf8Len (halveBaseStem fn) / 2)) ∧
    utf8Len (halve_filename_fallback 255 4096 out_dir fn) ≤ 255 ∧
    utf8Len (pathJoin out_dir (halve_filename_fallback 255 4096 out_dir fn)) ≤ 4096 ∧
    utf8Len (pathJoin out_dir
      (halve_filename_fallback 255 4096 out_dir fn ++ TMP_SUFFIX)) ≤ 4096 := by
  simp only [halve_filename_fallback]
  set ext := halveExt fn with hext
  set base := halveBaseStem fn with hbase
  have hextlen : 4 ≤ utf8Len ext ∧ utf8Len ext ≤ 5 := hext ▸ halveExt_len fn
  set tailB := utf8Len (ext ++ TMP_SUFFIX) with htailB
  have htl : tailB = utf8Len ext + 5 := by
    rw [htailB, utf8Len_append, utf8Len_TMP_SUFFIX]
  set halfB := max 1 (utf8Len base / 2) with hhalfB
  set msA := max 1 (255 - tailB) with hmsA
  set tgt := min halfB msA with htgt
  set ssA := trim_utf8_to_bytes base tgt (toL "___") with hssA
  have hss1 : utf8Len ssA ≤ tgt := by rw [hssA]; exact trim_utf8_le _ _ _
  set pfxB := utf8Len (out_dir ++ toL "/") with hpfxB
  have hpfx : pfxB = utf8Len out_dir + 1 := by
    rw [hpfxB, utf8Len_append]
    have h1 : utf8Len (toL "/") = 1 := by decide
    omega
  set mfb := max 1 (4096 - pfxB) with hmfb
  set ms2 := max 1 (mfb - tailB) with hms2
  set tgt2 := min tgt ms2 with htgt2
  set ssB := trim_utf8_to_bytes base tgt2 (toL "___") with hssB
  have hss2 : utf8Len ssB ≤ tgt2 := by rw [hssB]; exact trim_utf8_le _ _ _
  have ha1 : utf8Len (ssA ++ ext) = utf8Len ssA + utf8Len ext := utf8Len_append _ _
  have hb1 : utf8Len (ssB ++ ext) = utf8Len ssB + utf8Len ext := utf8Len_append _ _
  have hb2 : utf8Len (ssB ++ ext ++ TMP_SUFFIX) = utf8Len ssB + utf8Len ext + 5 := by
    rw [utf8Len_append, utf8Len_append, utf8Len_TMP_SUFFIX]
  split_ifs with htrig
  · have hj3 := utf8Len_pathJoin_le out_dir (ssB ++ ext)
    have hj4 := utf8Len_pathJoin_le out_dir (ssB ++ ext ++ TMP_SUFFIX)
    exact ⟨⟨ssB, rfl, by omega⟩, by omega, by omega, by omega⟩
  · push_neg at htrig
    exact ⟨⟨ssA, rfl, by omega⟩, by omega, htrig.1, htrig.2⟩

theorem downloadRetryLoop_attempts_le (attempt : Nat → Str → FsTry)
    (name_max path_max : Nat) (d : Str) :
    ∀ fuel used fn le,
      (downloadRetryLoop attempt name_max path_max d fuel used fn le).attempts ≤
        used + fuel := by
  intro fuel
  induction fuel with
  | zero => intro used fn le; simp [downloadRetryLoop]
  | succ k ih =>
    intro used fn le
    simp only [downloadRetryLoop]
    rcases hat : attempt used fn with _ | _ | msg <;> simp only [hat]
    · omega
    · have := ih (used + 1) (halve_filename_fallback name_max path_max d fn) le
      omega
    · omega

theorem processRow_records_download_failure (name_max path_max : Nat) (d : Str) :
    ∀ visited row eff, processRow name_max path_max d visited row = .ok eff →
      eff.outcome = .downloadFailed → eff.timeoutEntry.isSome = true := by
  intro visited row eff h
  simp only [processRow, mediaPhase, downloadPhase] at h
  repeat' split at h
  all_goals
    first
      | exact Except.noConfusion h
      | (injection h with h2; subst h2; simp)

/-- C5 (amended): on an errno-36 (name too long) failure the caller
shrinks and retries: `halve_filename_fallback` returns a filename whose
stem's byte length is at most half the previous base stem's byte length
or one byte, whichever is larger (a one-byte stem cannot shrink further,
so the literal "at most half" fails there — see the counterexample);
with the typical limits NAME_MAX = 255, PATH_MAX = 4096 and an output
directory of at most PATH_MAX − 12 bytes the new name is within the
NAME_MAX / PATH_MAX budget (for longer directories the PATH_MAX part can
fail, as for C1); the download loop makes at most 6 attempts; and when
it gives up the failure is recorded in the failure log. -/
theorem halve_and_retry_bounded (out_dir fn : Str)
    (hd : utf8Len out_dir + 12 ≤ 4096) :
    (∃ s, halve_filename_fallback 255 4096 out_dir fn = s ++ halveExt fn ∧
      utf8Len s ≤ max 1 (utf8Len (halveBaseStem fn) / 2)) ∧
    utf8Len (halve_filename_fallback 255 4096 out_dir fn) ≤ 255 ∧
    utf8Len (pathJoin out_dir (halve_filename_fallback 255 4096 out_dir fn)) ≤ 4096 ∧
    utf8Len (pathJoin out_dir
      (halve_filename_fallback 255 4096 out_dir fn ++ TMP_SUFFIX)) ≤ 4096 ∧
    (∀ attempt fn0 le,
      (downloadRetryLoop attempt 255 4096 out_dir 6 0 fn0 le).attempts ≤ 6) ∧
    (∀ visited row eff, processRow 255 4096 out_dir visited row = .ok eff →
      eff.outcome = .downloadFailed → eff.timeoutEntry.isSome = true) := by
  obtain ⟨h1, h2, h3, h4⟩ := halve_bounds out_dir fn hd
  refine ⟨h1, h2, h3, h4, ?_, processRow_records_download_failure 255 4096 out_dir⟩
  intro attempt fn0 le
  exact downloadRetryLoop_attempts_le attempt 255 4096 out_dir 6 0 fn0 le

theorem halve_and_retry_bounded_witness :
    utf8Len (halve_filename_fallback 255 4096 (toL "podcasts") (toL "a.mp3")) ≤ 255 :=
  (halve_and_retry_bounded (toL "podcasts") (toL "a.mp3") (by decide)).2.1

theorem halve_small_long_dir (d : Str) (h1 : utf8Len d = 4091)
    (h2 : d ≠ toL "/") (h3 : d ≠ toL ".") :
    halve_filename_fallback 255 4096 d (toL "a.mp3") = toL "a.mp3" := by
  have hpj : ∀ f : Str, utf8Len (pathJoin d f) = 4092 + utf8Len f := by
    intro f
    unfold pathJoin
    rw [if_neg h2, if_neg h3, utf8Len_append, utf8Len_append, h1]
    have h4 : utf8Len (toL "/") = 1 := by decide
    omega
  simp only [halve_filename_fallback]
  have hext : halveExt (toL "a.mp3") = toL ".mp3" := by decide
  rw [hext]
  have hbase : halveBaseStem (toL "a.mp3") = toL "a" := by decide
  rw [hbase]
  have h9 : utf8Len (toL ".mp3" ++ TMP_SUFFIX) = 9 := by decide
  rw [h9]
  have hhalf : max 1 (utf8Len (toL "a") / 2) = 1 := by decide
  rw [hhalf]
  have hmsA : max 1 (255 - 9) = 246 := by decide
  rw [hmsA]
  have htgt : min 1 246 = 1 := by decide
  rw [htgt]
  have htr : trim_utf8_to_bytes (toL "a") 1 (toL "___") = toL "a" := by decide
  rw [htr]
  have hfn : toL "a" ++ toL ".mp3" = toL "a.mp3" := by decide
  rw [hfn]
  have hcond : 4096 < utf8Len (pathJoin d (toL "a.mp3")) ∨
      4096 < utf8Len (pathJoin d (toL "a.mp3" ++ TMP_SUFFIX)) := by
    left
    rw [hpj]
    have h5 : utf8Len (toL "a.mp3") = 5 := by decide
    omega
  rw [if_pos hcond]
  have hpfx : utf8Len (d ++ toL "/") = 4092 := by
    rw [utf8Len_append, h1]
    have h4 : utf8Len (toL "/") = 1 := by decide
    omega
  rw [hpfx]
  have hmfb : max 1 (4096 - 4092) = 4 := by decide
  rw [hmfb]
  have hms2 : max 1 (4 - 9) = 1 := by decide
  rw [hms2]
  have htgt2 : min 1 1 = 1 := by decide
  rw [htgt2, htr, hfn]

/-- C5 counterexample: the claim fails in two ways.  A one-byte stem is
not halved: `halve_filename_fallback` on "a.mp3" returns "a.mp3", whose
stem has the same one byte as before (not at most half).  And the
NAME_MAX/PATH_MAX budget parenthetical fails for a 4091-byte output
directory: the halved name still yields a full path of 4097 > 4096
bytes. -/
theorem halve_not_half_counterexample :
    2 * utf8Len ((pySplitext (halve_filename_fallback 255 4096 (toL "podcasts")
        (toL "a.mp3"))).1) >
      utf8Len ((pySplitext (toL "a.mp3")).1) ∧
    4096 < utf8Len (pathJoin (List.replicate 4091 'a')
      (halve_filename_fallback 255 4096 (List.replicate 4091 'a') (toL "a.mp3"))) := by
  constructor
  · decide
  · have h1 : utf8Len (List.replicate 4091 'a') = 4091 :=
      utf8Len_replicate_one 4091 'a' (by decide)
    have h2 : List.replicate 4091 'a' ≠ toL "/" := by
      intro h
      have hl := congrArg List.length h
      rw [List.length_replicate] at hl
      have h1' : (toL "/").length = 1 := by decide
      omega
    have h3 : List.replicate 4091 'a' ≠ toL "." := by
      intro h
      have hl := congrArg List.length h
      rw [List.length_replicate] at hl
      have h1' : (toL ".").length = 1 := by decide
      omega
    rw [halve_small_long_dir _ h1 h2 h3]
    have hpj : utf8Len (pathJoin (List.replicate 4091 'a') (toL "a.mp3")) =
        4092 + utf8Len (toL "a.mp3") := by
      unfold pathJoin
      rw [if_neg h2, if_neg h3, utf8Len_append, utf8Len_append, h1]
      have h4 : utf8Len (toL "/") = 1 := by decide
      omega
    rw [hpj]
    decide

/-- Absence of the two per-episode events `main` does not catch: a
non-ENAMETOOLONG `OSError` escaping the existence probe (the bare
`raise`), and an audio URL that `urlparse` rejects. -/
def rowNoHardFailure (row : RowInput) : Prop :=
  (∀ i fn msg, row.existsCheck i fn ≠ .hardError msg) ∧
  (∀ url, row.audioUrl = some url → (pyUrlparse url).isSome = true)

theorem existsRetryLoop_no_hard (check : Nat → Str → ExistsOutcome)
    (name_max path_max : Nat) (d : Str)
    (hchk : ∀ i fn msg, check i fn ≠ .hardError msg) :
    ∀ fuel used fn,
      ∃ v, existsRetryLoop check name_max path_max d fuel used fn = .ok v := by
  intro fuel
  induction fuel with
  | zero => intro used fn; exact ⟨(false, fn), rfl⟩
  | succ k ih =>
    intro used fn
    simp only [existsRetryLoop]
    cases hc : check used fn with
    | value b => exact ⟨(b, fn), rfl⟩
    | nameTooLong => exact ih (used + 1) _
    | hardError msg => exact absurd hc (hchk _ _ _)

theorem downloadPhase_prop (name_max path_max : Nat) (d : Str) (row : RowInput)
    (key fn : Str) :
    (downloadPhase name_max path_max d row key fn).outcome = .downloadFailed →
      (downloadPhase name_max path_max d row key fn).timeoutEntry.isSome = true := by
  simp only [downloadPhase]
  split_ifs with h <;> simp

theorem mediaPhase_ok (name_max path_max : Nat) (d : Str) (row : RowInput)
    (key url : Str)
    (hchk : ∀ i fn msg, row.existsCheck i fn ≠ .hardError msg)
    (hg : ∃ e, guess_ext_from_url url = some e) :
    ∃ eff, mediaPhase name_max path_max d row key url = .ok eff ∧
      ((eff.outcome = .selectFailed ∨ eff.outcome = .noAudio ∨
        eff.outcome = .downloadFailed) → eff.timeoutEntry.isSome = true) := by
  obtain ⟨e, he⟩ := hg
  simp only [mediaPhase]
  split
  next heq =>
    rw [he] at heq
    cases heq
  next ext heq =>
    obtain ⟨⟨b, fn⟩, hv⟩ := existsRetryLoop_no_hard row.existsCheck name_max
      path_max d hchk 6 0
      (build_safe_filename name_max path_max d row.producer row.title row.date key ext)
    split
    next msg hmeq =>
      rw [hv] at hmeq
      cases hmeq
    next _fn hmeq => exact ⟨_, rfl, by simp⟩
    next fn2 hmeq =>
      refine ⟨downloadPhase name_max path_max d row key fn2, rfl, ?_⟩
      intro ho
      rcases ho with ho | ho | ho
      · exact absurd ho (by simp only [downloadPhase]; split_ifs <;> simp)
      · exact absurd ho (by simp only [downloadPhase]; split_ifs <;> simp)
      · exact downloadPhase_prop name_max path_max d row key fn2 ho

theorem processRow_no_abort (name_max path_max : Nat) (d : Str) (visited : List Str)
    (row : RowInput) (h : rowNoHardFailure row) :
    ∃ eff, processRow name_max path_max d visited row = .ok eff ∧
      ((eff.outcome = .selectFailed ∨ eff.outcome = .noAudio ∨
        eff.outcome = .downloadFailed) → eff.timeoutEntry.isSome = true) := by
  obtain ⟨hchk, hurl⟩ := h
  simp only [processRow]
  split_ifs with h1 h2 h3 h4
  · exact ⟨_, rfl, by simp⟩
  · exact ⟨_, rfl, by simp⟩
  · exact ⟨_, rfl, by simp⟩
  · exact ⟨_, rfl, by simp⟩
  · cases hau : row.audioUrl with
    | none => exact ⟨_, rfl, by simp⟩
    | some url =>
      have hg : ∃ e, guess_ext_from_url url = some e := by
        have hs := hurl url hau
        unfold guess_ext_from_url
        cases hp : pyUrlparse url with
        | none => rw [hp] at hs; simp at hs
        | some pr => exact ⟨_, rfl⟩
      obtain ⟨e, he⟩ := hg
      obtain ⟨eff, heff, hprop⟩ := mediaPhase_ok name_max path_max d row
        (episodeKeyOf row.title row.producer row.date) url hchk ⟨e, he⟩
      exact ⟨eff, heff, hprop⟩

/-- C7: per-episode failures of the kinds `main` handles — row selection
failure, no media URL resolved, download error — are caught and recorded
in the durable failure log, and processing always continues with the next
episode: the whole row list is processed, one effect per row. -/
theorem per_episode_failures_contained (name_max path_max : Nat) (d : Str)
    (visited : List Str) (rows : List RowInput)
    (h : ∀ row ∈ rows, rowNoHardFailure row) :
    ∃ effs, processRows name_max path_max d visited rows = .ok effs ∧
      effs.length = rows.length ∧
      ∀ eff ∈ effs,
        (eff.outcome = .selectFailed ∨ eff.outcome = .noAudio ∨
          eff.outcome = .downloadFailed) → eff.timeoutEntry.isSome = true := by
  revert h
  induction rows generalizing visited with
  | nil => exact fun _ => ⟨[], rfl, rfl, by simp⟩
  | cons row rest ih =>
    intro h
    obtain ⟨eff, heff, hprop⟩ := processRow_no_abort name_max path_max d visited row
      (h row (List.mem_cons_self _ _))
    obtain ⟨effs, heffs, hlen, hprops⟩ :=
      ih (match eff.visitedAdd with
          | some k => visited ++ [k]
          | none => visited)
        (fun r hr => h r (List.mem_cons_of_mem _ hr))
    refine ⟨eff :: effs, ?_, by simp [hlen], ?_⟩
    · simp only [processRows, heff, heffs]
    · intro e he
      rcases List.mem_cons.mp he with rfl | hmem
      · exact hprop
      · exact hprops e hmem

def sampleRowFail : RowInput :=
  ⟨toL "t1", toL "p1", toL "2024-01-01", true, false, toL "boom", none,
   fun _ _ => .value false, fun _ _ => .ok⟩

def sampleRowOk : RowInput :=
  ⟨toL "t2", toL "p2", toL "2024-01-02", true, true, [], some (toL "https://h/x.mp3"),
   fun _ _ => .value false, fun _ _ => .ok⟩

theorem per_episode_failures_contained_witness :
    ∃ effs, processRows 255 4096 (toL "podcasts") [] [sampleRowFail, sampleRowOk] =
        .ok effs ∧
      effs.length = [sampleRowFail, sampleRowOk].length ∧
      ∀ eff ∈ effs,
        (eff.outcome = .selectFailed ∨ eff.outcome = .noAudio ∨
          eff.outcome = .downloadFailed) → eff.timeoutEntry.isSome = true :=
  per_episode_failures_contained 255 4096 (toL "podcasts") [] _ (by
    intro r hr
    simp only [List.mem_cons, List.not_mem_nil, or_false] at hr
    rcases hr with rfl | rfl
    · refine ⟨fun i fn msg hh => by simp [sampleRowFail] at hh,
        fun url hh => by simp [sampleRowFail] at hh⟩
    · refine ⟨fun i fn msg hh => by simp [sampleRowOk] at hh, fun url hh => ?_⟩
      simp only [sampleRowOk] at hh
      cases hh
      decide)

/-! ### Lemmas for `strip_query` idempotence (C10) -/

theorem toNat_ofNat_valid (n : Nat) (h : n < 0xD800) : (Char.ofNat n).toNat = n := by
  have hv : n.isValidChar := Or.inl h
  simp [Char.ofNat, hv, Char.ofNatAux, Char.toNat, UInt32.toNat, BitVec.toNat_ofNatLt]

theorem splitFirst_eq_none (c : Char) (l : Str) (h : c ∉ l) : splitFirst c l = none := by
  induction l with
  | nil => rfl
  | cons x xs ih =>
    simp only [List.mem_cons, not_or] at h
    simp only [splitFirst, List.append_eq]
    rw [if_neg (Ne.symm h.1), ih h.2]

theorem splitFirst_some_spec (c : Char) :
    ∀ l a b, splitFirst c l = some (a, b) → l = a ++ c :: b ∧ c ∉ a := by
  intro l
  induction l with
  | nil => intro a b h; cases h
  | cons x xs ih =>
    intro a b h
    simp only [splitFirst] at h
    split_ifs at h with hx
    · injection h with h2
      injection h2 with h3 h4
      subst h3; subst h4; subst hx
      exact ⟨rfl, by simp⟩
    · cases hsf : splitFirst c xs with
      | none => rw [hsf] at h; cases h
      | some ab =>
        rcases ab with ⟨a1, b1⟩
        rw [hsf] at h
        simp only at h
        injection h with h2
        injection h2 with h3 h4
        subst h3; subst h4
        obtain ⟨h5, h6⟩ := ih a1 b1 hsf
        refine ⟨by rw [h5]; rfl, ?_⟩
        simp only [List.mem_cons, not_or]
        exact ⟨fun hh => hx hh.symm, h6⟩

theorem splitFirst_append (c : Char) (a b : Str) (h : c ∉ a) :
    splitFirst c (a ++ c :: b) = some (a, b) := by
  induction a with
  | nil => simp [splitFirst]
  | cons x xs ih =>
    simp only [List.mem_cons, not_or] at h
    simp only [List.cons_append, splitFirst, List.append_eq]
    rw [if_neg (Ne.symm h.1), ih h.2]

theorem prefix_not_mem {c : Char} {p l : Str} (hp : p <+: l) (h : c ∉ l) : c ∉ p :=
  fun hc => h (hp.subset hc)

theorem prefix_take_one {p l : Str} (hp : p <+: l) (hne : p ≠ []) :
    p.take 1 = l.take 1 := by
  obtain ⟨t, rfl⟩ := hp
  cases p with
  | nil => exact absurd rfl hne
  | cons x xs => rfl

theorem mem_takeWhile_pred (q : Char → Bool) (l : Str) :
    ∀ c ∈ l.takeWhile q, q c = true := by
  induction l with
  | nil => simp [List.takeWhile]
  | cons x xs ih =>
    intro c hc
    by_cases hx : q x
    · rw [List.takeWhile_cons, if_pos hx] at hc
      rcases List.mem_cons.mp hc with rfl | hc2
      · exact hx
      · exact ih c hc2
    · rw [List.takeWhile_cons, if_neg hx] at hc
      cases hc

theorem dropWhile_all (q : Char → Bool) (l : Str) (h : l.dropWhile q = []) :
    ∀ c ∈ l, q c = true := by
  induction l with
  | nil => simp
  | cons x xs ih =>
    by_cases hx : q x
    · rw [List.dropWhile_cons, if_pos hx] at h
      intro c hc
      rcases List.mem_cons.mp hc with rfl | hc2
      · exact hx
      · exact ih h c hc2
    · rw [List.dropWhile_cons, if_neg hx] at h
      cases h

theorem dropWhile_shape (q : Char → Bool) (l : Str) :
    l.dropWhile q = [] ∨ ∃ c t, l.dropWhile q = c :: t ∧ q c = false := by
  induction l with
  | nil => left; rfl
  | cons x xs ih =>
    by_cases hx : q x
    · rw [List.dropWhile_cons, if_pos hx]
      exact ih
    · rw [List.dropWhile_cons, if_neg hx]
      exact Or.inr ⟨x, xs, rfl, by simpa using hx⟩

theorem takeWhile_append_of (q : Char → Bool) (n p : Str)
    (hn : ∀ c ∈ n, q c = true)
    (hp : p = [] ∨ ∃ c t, p = c :: t ∧ q c = false) :
    (n ++ p).takeWhile q = n ∧ (n ++ p).dropWhile q = p := by
  induction n with
  | nil =>
    simp only [List.nil_append]
    rcases hp with rfl | ⟨c, t, rfl, hc⟩
    · exact ⟨rfl, rfl⟩
    · rw [List.takeWhile_cons, if_neg (by simp [hc]), List.dropWhile_cons,
        if_neg (by simp [hc])]
      exact ⟨rfl, rfl⟩
  | cons x xs ih =>
    have hx := hn x (List.mem_cons_self _ _)
    obtain ⟨ih1, ih2⟩ := ih (fun c hc => hn c (List.mem_cons_of_mem _ hc))
    rw [List.cons_append, List.takeWhile_cons, if_pos hx, List.dropWhile_cons,
      if_pos hx, ih1, ih2]
    exact ⟨rfl, rfl⟩

theorem splitFirst_none_not_mem (c : Char) (l : Str) : splitFirst c l = none → c ∉ l := by
  induction l with
  | nil => intro _; simp
  | cons x xs ih =>
    intro h
    simp only [splitFirst, List.append_eq] at h
    by_cases hx : x = c
    · rw [if_pos hx] at h
      cases h
    · rw [if_neg hx] at h
      simp only [List.mem_cons, not_or]
      refine ⟨fun hh => hx hh.symm, ?_⟩
      apply ih
      cases hsf : splitFirst c xs with
      | none => rfl
      | some ab =>
        rcases ab with ⟨a, b⟩
        rw [hsf] at h
        cases h

theorem splitSchemePart_cases (u s rest : Str) (h : splitSchemePart u = (s, rest)) :
    (s = [] ∧ rest = u) ∨
    ∃ pre, u = pre ++ ':' :: rest ∧ s = pyLower pre ∧ pre ≠ [] ∧
      isAsciiAlpha (pre.headD ' ') = true ∧ pre.all isSchemeChar = true ∧
      (':' : Char) ∉ pre := by
  unfold splitSchemePart at h
  split at h
  · injection h with h1 h2
    exact Or.inl ⟨h1.symm, h2.symm⟩
  next pre post heq =>
    split_ifs at h with hcond
    · injection h with h1 h2
      obtain ⟨hu, hni⟩ := splitFirst_some_spec ':' u pre post heq
      exact Or.inr ⟨pre, by rw [hu, h2], h1.symm, hcond.1, hcond.2.1, hcond.2.2, hni⟩
    · injection h with h1 h2
      exact Or.inl ⟨h1.symm, h2.symm⟩

theorem splitSchemePart_build (s rest : Str) (hne : s ≠ [])
    (halpha : isAsciiAlpha (s.headD ' ') = true) (hall : s.all isSchemeChar = true)
    (hni : (':' : Char) ∉ s) (hlow : pyLower s = s) :
    splitSchemePart (s ++ ':' :: rest) = (s, rest) := by
  unfold splitSchemePart
  simp only [splitFirst_append ':' s rest hni]
  rw [if_pos ⟨hne, halpha, hall⟩, hlow]

theorem splitSchemePart_fail_head (u : Str)
    (h : isAsciiAlpha (u.headD ' ') = false) : splitSchemePart u = ([], u) := by
  unfold splitSchemePart
  cases hsf : splitFirst ':' u with
  | none => rfl
  | some ab =>
    rcases ab with ⟨pre, post⟩
    obtain ⟨hu, -⟩ := splitFirst_some_spec ':' u pre post hsf
    simp only
    rw [if_neg]
    intro hcond
    obtain ⟨hne, halpha, -⟩ := hcond
    cases pre with
    | nil => exact hne rfl
    | cons c t =>
      rw [hu] at h
      simp only [List.cons_append, List.headD_cons] at h halpha
      rw [halpha] at h
      cases h

theorem splitSchemePart_fail_prefix (u p : Str) (hu : splitSchemePart u = ([], u))
    (hp : p <+: u) : splitSchemePart p = ([], p) := by
  cases hsf : splitFirst ':' p with
  | none => unfold splitSchemePart; simp only [hsf]
  | some ab =>
    rcases ab with ⟨a, b⟩
    obtain ⟨hpe, hna⟩ := splitFirst_some_spec ':' p a b hsf
    obtain ⟨t, ht⟩ := hp
    have husf : splitFirst ':' u = some (a, b ++ t) := by
      rw [← ht, hpe]
      have hassoc : (a ++ ':' :: b) ++ t = a ++ ':' :: (b ++ t) := by simp
      rw [hassoc]
      exact splitFirst_append ':' a (b ++ t) hna
    unfold splitSchemePart at hu
    simp only [husf] at hu
    by_cases hcond : a ≠ [] ∧ isAsciiAlpha (a.headD ' ') = true ∧
        a.all isSchemeChar = true
    · rw [if_pos hcond] at hu
      injection hu with h1 h2
      exact absurd (List.map_eq_nil_iff.mp h1) hcond.1
    · unfold splitSchemePart
      simp only [hsf]
      rw [if_neg hcond]

theorem splitFragmentPart_spec (u : Str) :
    (splitFragmentPart u).1 <+: u ∧ ('#' : Char) ∉ (splitFragmentPart u).1 := by
  unfold splitFragmentPart
  cases hsf : splitFirst '#' u with
  | none => exact ⟨List.prefix_refl _, splitFirst_none_not_mem _ _ hsf⟩
  | some ab =>
    rcases ab with ⟨a, b⟩
    obtain ⟨hu, hna⟩ := splitFirst_some_spec '#' u a b hsf
    exact ⟨⟨'#' :: b, hu.symm⟩, hna⟩

theorem splitQueryPart_spec (u : Str) :
    (splitQueryPart u).1 <+: u ∧ ('?' : Char) ∉ (splitQueryPart u).1 := by
  unfold splitQueryPart
  cases hsf : splitFirst '?' u with
  | none => exact ⟨List.prefix_refl _, splitFirst_none_not_mem _ _ hsf⟩
  | some ab =>
    rcases ab with ⟨a, b⟩
    obtain ⟨hu, hna⟩ := splitFirst_some_spec '?' u a b hsf
    exact ⟨⟨'?' :: b, hu.symm⟩, hna⟩

theorem splitFragmentPart_none (u : Str) (h : ('#' : Char) ∉ u) :
    splitFragmentPart u = (u, []) := by
  unfold splitFragmentPart
  simp only [splitFirst_eq_none '#' u h]

theorem splitQueryPart_none (u : Str) (h : ('?' : Char) ∉ u) :
    splitQueryPart u = (u, []) := by
  unfold splitQueryPart
  simp only [splitFirst_eq_none '?' u h]

theorem splitNetlocPart_spec (u : Str) :
    (splitNetlocPart u = ([], u) ∧ u.take 2 ≠ toL "//") ∨
    (u.take 2 = toL "//" ∧
      (∀ c ∈ (splitNetlocPart u).1, netlocDelim c = false) ∧
      ((splitNetlocPart u).2 = [] ∨
        ∃ c t, (splitNetlocPart u).2 = c :: t ∧ netlocDelim c = true)) := by
  unfold splitNetlocPart
  split_ifs with hcond
  · right
    refine ⟨hcond, ?_, ?_⟩
    · intro c hc
      have hh := mem_takeWhile_pred _ _ c hc
      simpa using hh
    · rcases dropWhile_shape (fun c => !netlocDelim c) (u.drop 2) with hsh | ⟨c, t, hsh, hc⟩
      · left; exact hsh
      · right; exact ⟨c, t, hsh, by simpa using hc⟩
  · left; exact ⟨rfl, hcond⟩

theorem splitNetlocPart_build (n p : Str) (hn : ∀ c ∈ n, netlocDelim c = false)
    (hp : p = [] ∨ ∃ c t, p = c :: t ∧ netlocDelim c = true) :
    splitNetlocPart (toL "//" ++ n ++ p) = (n, p) := by
  unfold splitNetlocPart
  have h2 : (toL "//" ++ n ++ p).take 2 = toL "//" := rfl
  rw [if_pos h2]
  have hd : (toL "//" ++ n ++ p).drop 2 = n ++ p := rfl
  rw [hd]
  have hq : ∀ c ∈ n, (fun c => !netlocDelim c) c = true := by
    intro c hc
    simp [hn c hc]
  have hsh : n ++ p = n ++ p ∧ (p = [] ∨ ∃ c t, p = c :: t ∧
      (fun c => !netlocDelim c) c = false) := by
    refine ⟨rfl, ?_⟩
    rcases hp with rfl | ⟨c, t, rfl, hc⟩
    · left; rfl
    · right; exact ⟨c, t, rfl, by simp [hc]⟩
  obtain ⟨ht, hdr⟩ := takeWhile_append_of (fun c => !netlocDelim c) n p hq hsh.2
  rw [ht, hdr]

theorem removeUnsafe_all (u : Str) : ∀ c ∈ removeUnsafe u, unsafeUrlChar c = false := by
  intro c hc
  unfold removeUnsafe at hc
  rw [List.mem_filter] at hc
  simpa using hc.2

theorem removeUnsafe_eq_self (u : Str) (h : ∀ c ∈ u, unsafeUrlChar c = false) :
    removeUnsafe u = u := by
  unfold removeUnsafe
  apply List.filter_eq_self.mpr
  intro a ha
  simp [h a ha]

theorem unsafeUrlChar_toNat (c : Char) (h : unsafeUrlChar c = true) :
    c.toNat = 9 ∨ c.toNat = 13 ∨ c.toNat = 10 := by
  unfold unsafeUrlChar at h
  simp only [Bool.or_eq_true, beq_iff_eq] at h
  rcases h with (h | h) | h <;> subst h
  · exact Or.inl rfl
  · exact Or.inr (Or.inl rfl)
  · exact Or.inr (Or.inr rfl)

theorem unsafeUrlChar_false_of (c : Char)
    (h : ¬(c.toNat = 9 ∨ c.toNat = 13 ∨ c.toNat = 10)) : unsafeUrlChar c = false := by
  cases hu : unsafeUrlChar c
  · rfl
  · exact absurd (unsafeUrlChar_toNat c hu) h

theorem lowerChar_not_unsafe (c : Char) (h : unsafeUrlChar c = false) :
    unsafeUrlChar (lowerChar c) = false := by
  unfold lowerChar
  split_ifs with hc
  · have ht : (Char.ofNat (c.toNat + 32)).toNat = c.toNat + 32 :=
      toNat_ofNat_valid _ (by omega)
    apply unsafeUrlChar_false_of
    rw [ht]
    omega
  · exact h

theorem isAsciiAlpha_lower (c : Char) (h : isAsciiAlpha c = true) :
    isAsciiAlpha (lowerChar c) = true := by
  unfold lowerChar
  split_ifs with hc
  · have ht : (Char.ofNat (c.toNat + 32)).toNat = c.toNat + 32 :=
      toNat_ofNat_valid _ (by omega)
    unfold isAsciiAlpha
    simp only [decide_eq_true_eq]
    rw [ht]
    omega
  · exact h

theorem isSchemeChar_lower (c : Char) (h : isSchemeChar c = true) :
    isSchemeChar (lowerChar c) = true := by
  by_cases hc : 65 ≤ c.toNat ∧ c.toNat ≤ 90
  · have he : lowerChar c = Char.ofNat (c.toNat + 32) := by
      unfold lowerChar; rw [if_pos hc]
    have ht : (Char.ofNat (c.toNat + 32)).toNat = c.toNat + 32 :=
      toNat_ofNat_valid _ (by omega)
    have halpha : isAsciiAlpha (lowerChar c) = true := by
      rw [he]
      unfold isAsciiAlpha
      simp only [decide_eq_true_eq]
      rw [ht]
      omega
    unfold isSchemeChar
    rw [halpha]
    simp
  · have he : lowerChar c = c := by unfold lowerChar; rw [if_neg hc]
    rw [he]
    exact h

theorem lowerChar_eq_colon (c : Char) (h : lowerChar c = ':') : c = ':' := by
  unfold lowerChar at h
  split_ifs at h with hc
  · exfalso
    have ht : (Char.ofNat (c.toNat + 32)).toNat = c.toNat + 32 :=
      toNat_ofNat_valid _ (by omega)
    have h2 := congrArg Char.toNat h
    rw [ht] at h2
    have h3 : (':' : Char).toNat = 58 := rfl
    omega
  · exact h

theorem colon_not_mem_pyLower (pre : Str) (h : (':' : Char) ∉ pre) :
    (':' : Char) ∉ pyLower pre := by
  intro hc
  unfold pyLower at hc
  rw [List.mem_map] at hc
  obtain ⟨a, ha, hla⟩ := hc
  exact h ((lowerChar_eq_colon a hla) ▸ ha)

theorem all_isSchemeChar_pyLower (pre : Str) (h : pre.all isSchemeChar = true) :
    (pyLower pre).all isSchemeChar = true := by
  rw [List.all_eq_true] at h ⊢
  intro x hx
  rw [pyLower, List.mem_map] at hx
  obtain ⟨a, ha, rfl⟩ := hx
  exact isSchemeChar_lower a (h a ha)

theorem pyLower_not_unsafe (pre : Str) (h : ∀ c ∈ pre, unsafeUrlChar c = false) :
    ∀ c ∈ pyLower pre, unsafeUrlChar c = false := by
  intro c hc
  rw [pyLower, List.mem_map] at hc
  obtain ⟨a, ha, rfl⟩ := hc
  exact lowerChar_not_unsafe a (h a ha)

theorem lowerChar_idem (c : Char) : lowerChar (lowerChar c) = lowerChar c := by
  by_cases h1 : 65 ≤ c.toNat ∧ c.toNat ≤ 90
  · have he : lowerChar c = Char.ofNat (c.toNat + 32) := by
      unfold lowerChar; rw [if_pos h1]
    rw [he]
    have ht : (Char.ofNat (c.toNat + 32)).toNat = c.toNat + 32 :=
      toNat_ofNat_valid _ (by omega)
    unfold lowerChar
    rw [if_neg (by rw [ht]; omega)]
  · have he : lowerChar c = c := by unfold lowerChar; rw [if_neg h1]
    rw [he, he]

theorem pyLower_idem (s : Str) : pyLower (pyLower s) = pyLower s := by
  unfold pyLower
  rw [List.map_map]
  exact List.map_congr_left fun a _ => lowerChar_idem a

theorem lastSeg_facts (x : Str) :
    x = (x.reverse.dropWhile (fun c => c != '/')).reverse ++
        (x.reverse.takeWhile (fun c => c != '/')).reverse ∧
    (∀ c ∈ (x.reverse.takeWhile (fun c => c != '/')).reverse, (c != '/') = true) := by
  constructor
  · conv_lhs => rw [← List.reverse_reverse x,
      ← List.takeWhile_append_dropWhile (fun c => c != '/') x.reverse,
      List.reverse_append]
  · intro c hc
    rw [List.mem_reverse] at hc
    exact mem_takeWhile_pred _ _ c hc

theorem slash_dropWhile (x : Str) (h : ('/' : Char) ∈ x) :
    ∃ pt, x.reverse.dropWhile (fun c => c != '/') = '/' :: pt := by
  rcases dropWhile_shape (fun c => c != '/') x.reverse with hsh | ⟨c, t, hsh, hc⟩
  · exfalso
    have hall := dropWhile_all _ _ hsh '/' (List.mem_reverse.mpr h)
    simp at hall
  · have hceq : c = '/' := by simpa using hc
    exact ⟨t, by rw [hsh, hceq]⟩

theorem splitParams_cases (x : Str) :
    splitParams x = (x, []) ∨
    ∃ pre a b, splitParams x = (pre ++ a, b) ∧ x = pre ++ (a ++ ';' :: b) ∧
      (';' : Char) ∉ a ∧
      ((pre = [] ∧ ('/' : Char) ∉ a) ∨
       (∃ pt, pre.reverse = '/' :: pt ∧ ∀ c ∈ a, (c != '/') = true)) := by
  unfold splitParams
  split_ifs with hs
  · obtain ⟨hx, hall⟩ := lastSeg_facts x
    cases hsf : splitFirst ';' ((x.reverse.takeWhile (fun c => c != '/')).reverse) with
    | none => left; rfl
    | some ab =>
      rcases ab with ⟨a, b⟩
      right
      obtain ⟨ht, hna⟩ := splitFirst_some_spec ';' _ a b hsf
      obtain ⟨pt, hpt⟩ := slash_dropWhile x hs
      set seg := (x.reverse.takeWhile (fun c => c != '/')).reverse with hsegdef
      set dpre := (x.reverse.dropWhile (fun c => c != '/')).reverse with hpredef
      have hlen : x.take (x.length - seg.length) = dpre := by
        conv_lhs => rw [hx]
        rw [List.length_append, Nat.add_sub_cancel, List.take_left]
      refine ⟨dpre, a, b, ?_, ?_, hna, ?_⟩
      · rw [hlen]
      · rw [ht] at hx
        exact hx
      · right
        refine ⟨pt, ?_, ?_⟩
        · rw [hpredef, List.reverse_reverse]
          exact hpt
        · intro c hc
          exact hall c (by rw [ht]; exact List.mem_append_left _ hc)
  · cases hsf : splitFirst ';' x with
    | none => left; rfl
    | some ab =>
      rcases ab with ⟨a, b⟩
      right
      obtain ⟨hxe, hna⟩ := splitFirst_some_spec ';' x a b hsf
      refine ⟨[], a, b, rfl, by simpa using hxe, hna,
        Or.inl ⟨rfl, prefix_not_mem ⟨';' :: b, hxe.symm⟩ hs⟩⟩

theorem splitParams_fst_prefix (x : Str) : (splitParams x).1 <+: x := by
  rcases splitParams_cases x with h | ⟨pre, a, b, h1, h2, -, -⟩
  · rw [h]
  · rw [h1]
    exact ⟨';' :: b, by rw [h2]; simp⟩

theorem splitParams_idem (x : Str) :
    splitParams ((splitParams x).1) = ((splitParams x).1, []) := by
  rcases splitParams_cases x with h | ⟨pre, a, b, h1, h2, hna, hsh⟩
  · rw [h]
    exact h
  · rw [h1]
    show splitParams (pre ++ a) = (pre ++ a, [])
    rcases hsh with ⟨rfl, hsl⟩ | ⟨pt, hpt, hall⟩
    · unfold splitParams
      rw [if_neg (by simpa using hsl)]
      simp only [List.nil_append, splitFirst_eq_none ';' a hna]
    · have hslash_pre : ('/' : Char) ∈ pre := by
        rw [← List.mem_reverse, hpt]
        exact List.mem_cons_self _ _
      unfold splitParams
      rw [if_pos (List.mem_append_left a hslash_pre)]
      have h1' : ∀ c ∈ a.reverse, (fun c => c != '/') c = true :=
        fun c hc => hall c (List.mem_reverse.mp hc)
      have h2' : ('/' :: pt : Str) = [] ∨ ∃ c t, ('/' :: pt : Str) = c :: t ∧
          (fun c => c != '/') c = false := Or.inr ⟨'/', pt, rfl, by decide⟩
      have hseg : ((pre ++ a).reverse.takeWhile (fun c => c != '/')).reverse = a := by
        rw [List.reverse_append, hpt,
          (takeWhile_append_of _ a.reverse ('/' :: pt) h1' h2').1, List.reverse_reverse]
      rw [hseg]
      simp only [splitFirst_eq_none ';' a hna]

theorem take1_of_take2 (p : Str) (h : p.take 2 = toL "//") : p.take 1 = toL "/" := by
  have h1 : (1 : Nat) = min 1 2 := rfl
  rw [h1, ← List.take_take, h]
  rfl

theorem splitNetlocPart_subset (u : Str) :
    (∀ c ∈ (splitNetlocPart u).1, c ∈ u) ∧ (∀ c ∈ (splitNetlocPart u).2, c ∈ u) := by
  unfold splitNetlocPart
  split_ifs with hc
  · constructor
    · intro c hcm
      exact List.drop_subset _ _ ((List.takeWhile_prefix _).subset hcm)
    · intro c hcm
      exact List.drop_subset _ _ ((List.dropWhile_suffix _).subset hcm)
  · exact ⟨fun c hcm => absurd hcm (List.not_mem_nil c), fun c hcm => hcm⟩

theorem netlocDelim_cases (c : Char) (h : netlocDelim c = true) :
    c = '/' ∨ c = '?' ∨ c = '#' := by
  unfold netlocDelim at h
  simp only [Bool.or_eq_true, beq_iff_eq] at h
  tauto

/-- Invariants of the `(scheme, netloc, path)` triple `urlsplit` returns,
sufficient for a faithful round trip through `urlunsplit`. -/
structure SplitInv (s n p : Str) : Prop where
  ok_s : ∀ c ∈ s, unsafeUrlChar c = false
  ok_n : ∀ c ∈ n, unsafeUrlChar c = false
  ok_p : ∀ c ∈ p, unsafeUrlChar c = false
  scheme_shape : s = [] ∨ (s ≠ [] ∧ isAsciiAlpha (s.headD ' ') = true ∧
    s.all isSchemeChar = true ∧ (':' : Char) ∉ s ∧ pyLower s = s)
  n_clean : ∀ c ∈ n, netlocDelim c = false
  n_brackets : ¬ bracketMismatch n
  p_no_frag : ('#' : Char) ∉ p
  p_no_query : ('?' : Char) ∉ p
  p_slash : n ≠ [] → p = [] ∨ p.take 1 = toL "/"
  p_scheme : s = [] → n = [] → p.take 2 ≠ toL "//" → splitSchemePart p = ([], p)

theorem pyUrlsplit_inv (u : Str) (r : SplitResult) (h : pyUrlsplit u = some r) :
    SplitInv r.scheme r.netloc r.path := by
  simp only [pyUrlsplit] at h
  split_ifs at h with hbr
  cases h
  set u1 := removeUnsafe u with hu1def
  have hu1ok : ∀ c ∈ u1, unsafeUrlChar c = false := removeUnsafe_all u
  set sp := splitSchemePart u1 with hspdef
  have hsp_eq : splitSchemePart u1 = (sp.1, sp.2) := by rw [← hspdef]
  have hspc := splitSchemePart_cases u1 sp.1 sp.2 hsp_eq
  set nl := splitNetlocPart sp.2 with hnldef
  set fr := splitFragmentPart nl.2 with hfrdef
  set qu := splitQueryPart fr.1 with hqudef
  show SplitInv sp.1 nl.1 qu.1
  have hfrPre : fr.1 <+: nl.2 := by rw [hfrdef]; exact (splitFragmentPart_spec nl.2).1
  have hfrNo : ('#' : Char) ∉ fr.1 := by rw [hfrdef]; exact (splitFragmentPart_spec nl.2).2
  have hquPre : qu.1 <+: fr.1 := by rw [hqudef]; exact (splitQueryPart_spec fr.1).1
  have hquNo : ('?' : Char) ∉ qu.1 := by rw [hqudef]; exact (splitQueryPart_spec fr.1).2
  have hpnl : qu.1 <+: nl.2 := hquPre.trans hfrPre
  have hsub := splitNetlocPart_subset sp.2
  have hnlsub1 : ∀ c ∈ nl.1, c ∈ sp.2 := by rw [hnldef]; exact hsub.1
  have hnlsub2 : ∀ c ∈ nl.2, c ∈ sp.2 := by rw [hnldef]; exact hsub.2
  have hsp2sub : ∀ c ∈ sp.2, c ∈ u1 := by
    rcases hspc with ⟨-, hrest⟩ | ⟨pre, hu1e, -, -, -, -, -⟩
    · intro c hc; rw [← hrest]; exact hc
    · intro c hc
      rw [hu1e]
      exact List.mem_append_right _ (List.mem_cons_of_mem _ hc)
  have hpsub : ∀ c ∈ qu.1, c ∈ u1 := fun c hc => hsp2sub c (hnlsub2 c (hpnl.subset hc))
  have hnlspec := splitNetlocPart_spec sp.2
  have hp_shape_of_taken : sp.2.take 2 = toL "//" →
      qu.1 = [] ∨ qu.1.take 1 = toL "/" := by
    intro htaken
    rcases hnlspec with ⟨-, hne⟩ | ⟨-, -, hshape⟩
    · exact absurd htaken hne
    · rw [← hnldef] at hshape
      rcases hshape with hnil | ⟨c, t, hcons, hdel⟩
      · left
        rw [hnil] at hpnl
        exact List.prefix_nil.mp hpnl
      · by_cases hp0 : qu.1 = []
        · exact Or.inl hp0
        · have h1 := prefix_take_one hpnl hp0
          rw [hcons] at h1
          rcases netlocDelim_cases c hdel with rfl | rfl | rfl
          · exact Or.inr h1
          · exfalso
            apply hquNo
            apply List.take_subset 1 qu.1
            rw [h1]
            exact List.mem_singleton_self _
          · exfalso
            apply hfrNo
            apply hquPre.subset
            apply List.take_subset 1 qu.1
            rw [h1]
            exact List.mem_singleton_self _
  refine ⟨?_, ?_, ?_, ?_, ?_, ?_, ?_, ?_, ?_, ?_⟩
  · -- ok_s
    rcases hspc with ⟨hsnil, -⟩ | ⟨pre, hu1e, hslow, hpre_ne, -, -, -⟩
    · intro c hc; rw [hsnil] at hc; cases hc
    · intro c hc
      rw [hslow] at hc
      refine pyLower_not_unsafe pre ?_ c hc
      intro d hd
      apply hu1ok
      rw [hu1e]
      exact List.mem_append_left _ hd
  · -- ok_n
    intro c hc
    exact hu1ok c (hsp2sub c (hnlsub1 c hc))
  · -- ok_p
    intro c hc
    exact hu1ok c (hpsub c hc)
  · -- scheme_shape
    rcases hspc with ⟨hsnil, -⟩ | ⟨pre, hu1e, hslow, hpre_ne, halpha, hall, hni⟩
    · exact Or.inl hsnil
    · right
      refine ⟨?_, ?_, ?_, ?_, ?_⟩
      · rw [hslow]
        simp only [pyLower, ne_eq, List.map_eq_nil_iff]
        exact hpre_ne
      · rw [hslow]
        cases pre with
        | nil => exact absurd rfl hpre_ne
        | cons c t =>
          simp only [pyLower, List.map_cons, List.headD_cons]
          simp only [List.headD_cons] at halpha
          exact isAsciiAlpha_lower c halpha
      · rw [hslow]
        exact all_isSchemeChar_pyLower pre hall
      · rw [hslow]
        exact colon_not_mem_pyLower pre hni
      · rw [hslow]
        exact pyLower_idem pre
  · -- n_clean
    rcases hnlspec with ⟨heq, -⟩ | ⟨-, hcl, -⟩
    · rw [hnldef, heq]
      intro c hc
      cases hc
    · rw [hnldef]
      exact hcl
  · -- n_brackets
    exact hbr
  · -- p_no_frag
    exact prefix_not_mem hquPre hfrNo
  · -- p_no_query
    exact hquNo
  · -- p_slash
    intro hn
    rcases hnlspec with ⟨heq, -⟩ | ⟨htaken, -⟩
    · exfalso
      apply hn
      rw [hnldef, heq]
    · exact hp_shape_of_taken htaken
  · -- p_scheme
    intro hs0 hn0 hp2
    by_cases htaken : sp.2.take 2 = toL "//"
    · rcases hp_shape_of_taken htaken with hp0 | h1
      · simp only [hp0]
        rfl
      · apply splitSchemePart_fail_head
        cases hq : qu.1 with
        | nil => decide
        | cons c t =>
          rw [hq] at h1
          rw [List.take_succ_cons, List.take_zero] at h1
          have hc7 : c = '/' := by
            injection h1
          rw [List.headD_cons, hc7]
          decide
    · have hnl_eq : nl = ([], sp.2) := by
        rcases hnlspec with ⟨heq, -⟩ | ⟨htk, -⟩
        · rw [hnldef]; exact heq
        · exact absurd htk htaken
      have hnl2 : nl.2 = sp.2 := by rw [hnl_eq]
      have hsp2u1 : sp.2 = u1 := by
        rcases hspc with ⟨hsnil, hrest⟩ | ⟨pre, -, hslow, hpre_ne, -, -, -⟩
        · exact hrest
        · exfalso
          apply hpre_ne
          rw [hslow] at hs0
          exact List.map_eq_nil_iff.mp hs0
      have hfail : splitSchemePart u1 = ([], u1) := by
        rcases hspc with ⟨hsnil, hrest⟩ | ⟨pre, -, hslow, hpre_ne, -, -, -⟩
        · rw [hsp_eq, hsnil, hrest]
        · exfalso
          apply hpre_ne
          rw [hslow] at hs0
          exact List.map_eq_nil_iff.mp hs0
      apply splitSchemePart_fail_prefix u1 qu.1 hfail
      rw [← hsp2u1, ← hnl2]
      exact hpnl

theorem splitInv_prefix (s n p p' : Str) (inv : SplitInv s n p) (hpre : p' <+: p) :
    SplitInv s n p' := by
  refine ⟨inv.ok_s, inv.ok_n, ?_, inv.scheme_shape, inv.n_clean, inv.n_brackets,
    ?_, ?_, ?_, ?_⟩
  · intro c hc
    exact inv.ok_p c (hpre.subset hc)
  · exact prefix_not_mem hpre inv.p_no_frag
  · exact prefix_not_mem hpre inv.p_no_query
  · intro hn
    by_cases hp0 : p' = []
    · exact Or.inl hp0
    · right
      rcases inv.p_slash hn with hpnil | h1
      · exfalso
        apply hp0
        rw [hpnil] at hpre
        exact List.prefix_nil.mp hpre
      · rw [prefix_take_one hpre hp0, h1]
  · intro hs0 hn0 hp2
    by_cases hptk : p.take 2 = toL "//"
    · by_cases hp0 : p' = []
      · simp only [hp0]
        rfl
      · apply splitSchemePart_fail_head
        have h1 : p'.take 1 = toL "/" := by
          rw [prefix_take_one hpre hp0]
          exact take1_of_take2 p hptk
        cases p' with
        | nil => exact absurd rfl hp0
        | cons c t =>
          rw [List.take_succ_cons, List.take_zero] at h1
          have hc7 : c = '/' := by injection h1
          rw [List.headD_cons, hc7]
          decide
    · exact splitSchemePart_fail_prefix p p' (inv.p_scheme hs0 hn0 hptk) hpre

theorem pyUrlsplit_unsplit (s n p : Str) (inv : SplitInv s n p) :
    pyUrlsplit (urlunsplit s n p [] []) = some ⟨s, n, p, [], []⟩ := by
  have h9 : ¬(([] : Str) ≠ []) := by simp
  have hfr : splitFragmentPart p = (p, []) := splitFragmentPart_none p inv.p_no_frag
  have hf1 : (splitFragmentPart p).1 = p := by rw [hfr]
  have hf2 : (splitFragmentPart p).2 = [] := by rw [hfr]
  have hqu : splitQueryPart p = (p, []) := splitQueryPart_none p inv.p_no_query
  have hq1 : (splitQueryPart p).1 = p := by rw [hqu]
  have hq2 : (splitQueryPart p).2 = [] := by rw [hqu]
  have hok2 : ∀ c ∈ toL "//" ++ n ++ p, unsafeUrlChar c = false := by
    intro c hc
    rcases List.mem_append.mp hc with hc | hc
    · rcases List.mem_append.mp hc with hc | hc
      · have hcc : c = '/' := by
          rcases List.mem_cons.mp hc with rfl | hc2
          · rfl
          · rcases List.mem_cons.mp hc2 with rfl | hc3
            · rfl
            · cases hc3
        rw [hcc]
        decide
      · exact inv.ok_n c hc
    · exact inv.ok_p c hc
  by_cases hcond : n ≠ [] ∨ p.take 2 = toL "//"
  · have hsl : p = [] ∨ p.take 1 = toL "/" := by
      rcases hcond with hn | hptk
      · exact inv.p_slash hn
      · exact Or.inr (take1_of_take2 p hptk)
    have hp_sl : (if p ≠ [] ∧ p.take 1 ≠ toL "/" then '/' :: p else p) = p := by
      rcases hsl with rfl | h1
      · simp
      · rw [if_neg]
        intro hc
        exact hc.2 h1
    have hshape : p = [] ∨ ∃ c t, p = c :: t ∧ netlocDelim c = true := by
      rcases hsl with rfl | h1
      · exact Or.inl rfl
      · cases p with
        | nil => exact Or.inl rfl
        | cons c t =>
          right
          rw [List.take_succ_cons, List.take_zero] at h1
          have hc7 : c = '/' := by injection h1
          exact ⟨c, t, rfl, by rw [hc7]; rfl⟩
    have hurl : urlunsplit s n p [] [] =
        if s ≠ [] then s ++ ':' :: (toL "//" ++ n ++ p) else toL "//" ++ n ++ p := by
      simp only [urlunsplit]
      rw [if_neg h9, if_neg h9, hp_sl, if_pos hcond]
    have hnet : splitNetlocPart (toL "//" ++ n ++ p) = (n, p) :=
      splitNetlocPart_build n p inv.n_clean hshape
    have hn1 : (splitNetlocPart (toL "//" ++ n ++ p)).1 = n := by rw [hnet]
    have hn2 : (splitNetlocPart (toL "//" ++ n ++ p)).2 = p := by rw [hnet]
    rw [hurl]
    by_cases hs : s ≠ []
    · rw [if_pos hs]
      rcases inv.scheme_shape with hs0 | ⟨-, halpha, hall, hni, hlow⟩
      · exact absurd hs0 hs
      have hok : ∀ c ∈ s ++ ':' :: (toL "//" ++ n ++ p), unsafeUrlChar c = false := by
        intro c hc
        rcases List.mem_append.mp hc with hc | hc
        · exact inv.ok_s c hc
        · rcases List.mem_cons.mp hc with rfl | hc
          · decide
          · exact hok2 c hc
      have hscheme := splitSchemePart_build s (toL "//" ++ n ++ p) hs halpha hall hni hlow
      have hs1 : (splitSchemePart (s ++ ':' :: (toL "//" ++ n ++ p))).1 = s := by
        rw [hscheme]
      have hs2 : (splitSchemePart (s ++ ':' :: (toL "//" ++ n ++ p))).2 =
          toL "//" ++ n ++ p := by
        rw [hscheme]
      simp only [pyUrlsplit]
      rw [removeUnsafe_eq_self _ hok, hs2, hn1, hn2, hs1, hf1, hf2, hq1, hq2,
        if_neg inv.n_brackets]
    · rw [if_neg hs]
      have hs0 : s = [] := not_ne_iff.mp hs
      subst hs0
      have hscheme : splitSchemePart (toL "//" ++ n ++ p) =
          ([], toL "//" ++ n ++ p) := by
        apply splitSchemePart_fail_head
        show isAsciiAlpha '/' = false
        decide
      have hs1 : (splitSchemePart (toL "//" ++ n ++ p)).1 = [] := by rw [hscheme]
      have hs2 : (splitSchemePart (toL "//" ++ n ++ p)).2 = toL "//" ++ n ++ p := by
        rw [hscheme]
      simp only [pyUrlsplit]
      rw [removeUnsafe_eq_self _ hok2, hs2, hn1, hn2, hs1, hf1, hf2, hq1, hq2,
        if_neg inv.n_brackets]
  · have hcond2 : n = [] ∧ p.take 2 ≠ toL "//" := by
      constructor
      · by_contra hn
        exact hcond (Or.inl hn)
      · intro hx
        exact hcond (Or.inr hx)
    obtain ⟨hn0, hp2⟩ := hcond2
    subst hn0
    have hurl : urlunsplit s [] p [] [] = if s ≠ [] then s ++ ':' :: p else p := by
      simp only [urlunsplit]
      rw [if_neg h9, if_neg h9, if_neg hcond]
    have hnet : splitNetlocPart p = (([] : Str), p) := by
      unfold splitNetlocPart
      rw [if_neg hp2]
    have hn1 : (splitNetlocPart p).1 = [] := by rw [hnet]
    have hn2 : (splitNetlocPart p).2 = p := by rw [hnet]
    rw [hurl]
    by_cases hs : s ≠ []
    · rw [if_pos hs]
      rcases inv.scheme_shape with hs0 | ⟨-, halpha, hall, hni, hlow⟩
      · exact absurd hs0 hs
      have hok : ∀ c ∈ s ++ ':' :: p, unsafeUrlChar c = false := by
        intro c hc
        rcases List.mem_append.mp hc with hc | hc
        · exact inv.ok_s c hc
        · rcases List.mem_cons.mp hc with rfl | hc
          · decide
          · exact inv.ok_p c hc
      have hscheme := splitSchemePart_build s p hs halpha hall hni hlow
      have hs1 : (splitSchemePart (s ++ ':' :: p)).1 = s := by rw [hscheme]
      have hs2 : (splitSchemePart (s ++ ':' :: p)).2 = p := by rw [hscheme]
      simp only [pyUrlsplit]
      rw [removeUnsafe_eq_self _ hok, hs2, hn1, hn2, hs1, hf1, hf2, hq1, hq2,
        if_neg inv.n_brackets]
    · rw [if_neg hs]
      have hs0 : s = [] := not_ne_iff.mp hs
      subst hs0
      have hscheme : splitSchemePart p = (([] : Str), p) :=
        inv.p_scheme rfl rfl hp2
      have hs1 : (splitSchemePart p).1 = [] := by rw [hscheme]
      have hs2 : (splitSchemePart p).2 = p := by rw [hscheme]
      simp only [pyUrlsplit]
      rw [removeUnsafe_eq_self _ inv.ok_p, hs2, hn1, hn2, hs1, hf1, hf2, hq1, hq2,
        if_neg inv.n_brackets]

theorem strip_query_of_split (w : Str) (r : SplitResult) (h : pyUrlsplit w = some r) :
    strip_query w = some (urlunsplit r.scheme r.netloc
      (if r.scheme ∈ uses_params ∧ (';' : Char) ∈ r.path
       then (splitParams r.path).1 else r.path) [] []) := by
  unfold strip_query pyUrlparse
  rw [h]
  simp only [Option.map]
  split_ifs with hc
  · rfl
  · rfl

/-- **C10**: `strip_query` is idempotent: whenever `strip_query u` parses
and returns a normalized key `v`, running `strip_query` on `v` returns `v`
itself, so the keys of the collector's `visited` and `library` stores are
stable under repeated normalization. -/
theorem strip_query_idempotent (u v : Str) (h : strip_query u = some v) :
    strip_query v = some v := by
  cases hsplit : pyUrlsplit u with
  | none =>
    unfold strip_query pyUrlparse at h
    rw [hsplit] at h
    exact Option.noConfusion h
  | some r =>
    have hinv := pyUrlsplit_inv u r hsplit
    have hsq := strip_query_of_split u r hsplit
    rw [h] at hsq
    injection hsq with hveq
    set p1 := if r.scheme ∈ uses_params ∧ (';' : Char) ∈ r.path
      then (splitParams r.path).1 else r.path with hp1def
    have hp1pre : p1 <+: r.path := by
      rw [hp1def]
      split_ifs with hc
      · exact splitParams_fst_prefix r.path
      · exact List.prefix_refl _
    have hinv1 : SplitInv r.scheme r.netloc p1 :=
      splitInv_prefix r.scheme r.netloc r.path p1 hinv hp1pre
    have hre : pyUrlsplit v = some ⟨r.scheme, r.netloc, p1, [], []⟩ := by
      rw [hveq]
      exact pyUrlsplit_unsplit r.scheme r.netloc p1 hinv1
    have hsq2 := strip_query_of_split v ⟨r.scheme, r.netloc, p1, [], []⟩ hre
    dsimp only at hsq2
    by_cases hc2 : r.scheme ∈ uses_params ∧ (';' : Char) ∈ p1
    · have hfirst : r.scheme ∈ uses_params ∧ (';' : Char) ∈ r.path :=
        ⟨hc2.1, hp1pre.subset hc2.2⟩
      have hp1eq : p1 = (splitParams r.path).1 := by
        rw [hp1def, if_pos hfirst]
      have hidem : (splitParams p1).1 = p1 := by
        rw [hp1eq, splitParams_idem]
      rw [hsq2, if_pos hc2, hidem, hveq]
    · rw [hsq2, if_neg hc2, hveq]

theorem strip_query_idempotent_witness :
    strip_query (toL "https://soundcloud.com/a/b?in=x#t") =
      some (toL "https://soundcloud.com/a/b") ∧
    strip_query (toL "https://soundcloud.com/a/b") =
      some (toL "https://soundcloud.com/a/b") :=
  ⟨by decide, strip_query_idempotent (toL "https://soundcloud.com/a/b?in=x#t")
    (toL "https://soundcloud.com/a/b") (by decide)⟩
